import Mathlib

/-!
# Verification of the onelogin terraform-import core

Shallow embedding of the structured-state-to-HCL compiler of the
`jbauers/onelogin` repository (packages `tfimport`, `stateparser` and the
`cmd` terraform-import command), together with proofs and refutations of
the specification claims.

Modelling conventions:
* Go's dynamically typed JSON values (`interface\x7b\x7d` after a
  `json.Marshal`/`json.Unmarshal` round trip) are embedded as the inductive
  type `Value`.  JSON numbers decode to `float64` in Go; the claims only
  exercise numbers at integral values, so numbers are embedded as `Int`
  (`fmt` renders an integral `float64` with `%v` exactly as its integer
  digits).
* Go maps (`map[string]interface\x7b\x7d`) are embedded as association
  lists.  Go iterates maps in random order; the embedding fixes the list
  order, which makes every run of the embedded serializer one of the
  possible runs of the Go code.
* A Go `panic` (the source calls `reflect.TypeOf(v).Kind()` which panics
  when `v` is a nil interface) is embedded as `Except.error`.
* `strings.Builder` appends are embedded by returning the appended string.
-/

namespace OneLoginTF

/-- Embedding of a decoded JSON value (`interface\x7b\x7d` after the
`json.Marshal` / `json.Unmarshal` round trip the source performs at every
recursion step).  Numbers are embedded at integral values, see the header
comment. -/
inductive Value where
  | null : Value
  | str (s : String) : Value
  | num (n : Int) : Value
  | bool (b : Bool) : Value
  | list (xs : List Value) : Value
  | obj (fields : List (String × Value)) : Value
deriving Repr

/-- Element of Go's `reflect` kind classes the serializer dispatches on:
`Array`/`Slice`/`Map` are the composite kinds. -/
def Value.isComposite : Value → Bool
  | .list _ => true
  | .obj _ => true
  | _ => false

/-- Scalar kinds (string, number, boolean): the kinds rendered inline. -/
def Value.isScalar : Value → Bool
  | .str _ => true
  | .num _ => true
  | .bool _ => true
  | _ => false

/-- Go's `strings.ToLower` (the values in play are ASCII). -/
def goToLower (s : String) : String := ⟨s.toList.map Char.toLower⟩

/-- One tab per indentation level: the source's `indent(level)`. -/
def indentStr (level : Nat) : String := ⟨List.replicate level '\t'⟩

/-- Modelled from the spec: the external Key Normalizer
(`utils.ToSnakeCase` from the onelogin-go-sdk, not part of this
repository).  "Converts word-boundary-delimited mixed-case identifiers to
lowercase words joined by underscores"; an underscore is inserted before an
uppercase letter that follows a lowercase letter or a digit, and every
letter is lowercased; any other input is passed through. -/
def snakeNeedsSep (prev : Option Char) (c : Char) : Bool :=
  c.isUpper && (match prev with
    | some p => p.isLower || p.isDigit
    | none => false)

def toSnakeAux : Option Char → List Char → List Char
  | _, [] => []
  | prev, c :: cs =>
    (if snakeNeedsSep prev c then ['_', c.toLower] else [c.toLower]) ++ toSnakeAux (some c) cs

def toSnakeCase (s : String) : String := ⟨toSnakeAux none s.toList⟩

/-- Escaping of one character under Go's `%q` verb (the characters the
program emits are plain printables; the common escapes are modelled). -/
def goQuoteChar (c : Char) : List Char :=
  if c = '"' then ['\\', '"']
  else if c = '\\' then ['\\', '\\']
  else if c = '\n' then ['\\', 'n']
  else if c = '\t' then ['\\', 't']
  else if c = '\r' then ['\\', 'r']
  else [c]

/-- Go's `%q` applied to a string: double quotes around the escaped text. -/
def goQuote (s : String) : String :=
  "\"" ++ (⟨(s.toList.map goQuoteChar).flatten⟩ : String) ++ "\""

/-- Insertion sort of rendered key/text pairs by key (Go's `fmt` prints
map entries in sorted key order). -/
def insertPair (p : String × String) : List (String × String) → List (String × String)
  | [] => [p]
  | q :: qs => if p.1 ≤ q.1 then p :: q :: qs else q :: insertPair p qs

def sortPairs : List (String × String) → List (String × String)
  | [] => []
  | p :: ps => insertPair p (sortPairs ps)

/-- Space-joined list of strings (how `fmt` separates slice elements and
map entries). -/
def spaceJoin : List String → String
  | [] => ""
  | [s] => s
  | s :: t :: ts => s ++ " " ++ spaceJoin (t :: ts)

mutual

/-- Go's `fmt.Sprintf("%q", v)` on a decoded JSON value: strings are
quoted; other kinds produce the `%!q(...)` bad-verb notation; `fmt`
applies the verb elementwise inside slices and maps (map entries in
sorted key order). -/
def goQuoteValue : Value → String
  | .str s => goQuote s
  | .num n => "%!q(float64=" ++ toString n ++ ")"
  | .bool b => "%!q(bool=" ++ toString b ++ ")"
  | .null => "%!q(<nil>)"
  | .list xs => "[" ++ spaceJoin (goQuoteList xs) ++ "]"
  | .obj fs =>
    "map[" ++ spaceJoin ((sortPairs (goQuotePairs fs)).map fun p => goQuote p.1 ++ ":" ++ p.2)
      ++ "]"

def goQuoteList : List Value → List String
  | [] => []
  | x :: xs => goQuoteValue x :: goQuoteList xs

def goQuotePairs : List (String × Value) → List (String × String)
  | [] => []
  | (k, v) :: fs => (k, goQuoteValue v) :: goQuotePairs fs

end

mutual

/-- Go's `fmt.Sprintf("%0.f", v)` on a decoded JSON value: a number is
rounded to zero decimals (integral in this embedding); other kinds produce
the `%!f(...)` bad-verb notation, elementwise inside slices and maps. -/
def goFmt0f : Value → String
  | .num n => toString n
  | .bool b => "%!f(bool=" ++ toString b ++ ")"
  | .str s => "%!f(string=" ++ s ++ ")"
  | .null => "%!f(<nil>)"
  | .list xs => "[" ++ spaceJoin (goFmt0fList xs) ++ "]"
  | .obj fs =>
    "map[" ++ spaceJoin ((sortPairs (goFmt0fPairs fs)).map
      fun p => "%!f(string=" ++ p.1 ++ "):" ++ p.2) ++ "]"

def goFmt0fList : List Value → List String
  | [] => []
  | x :: xs => goFmt0f x :: goFmt0fList xs

def goFmt0fPairs : List (String × Value) → List (String × String)
  | [] => []
  | (k, v) :: fs => (k, goFmt0f v) :: goFmt0fPairs fs

end

/-- Go's `%v` on a scalar decoded JSON value (numbers and booleans take
this path in the serializer). -/
def goFmtV : Value → String
  | .num n => toString n
  | .bool b => toString b
  | .str s => s
  | _ => ""

mutual

/-- `true` when the value contains no JSON `null` anywhere: on such values
neither serializer can hit the `reflect.TypeOf(nil).Kind()` panic. -/
def Value.nullFree : Value → Bool
  | .null => false
  | .str _ => true
  | .num _ => true
  | .bool _ => true
  | .list xs => nullFreeList xs
  | .obj fs => nullFreeFields fs

def nullFreeList : List Value → Bool
  | [] => true
  | x :: xs => x.nullFree && nullFreeList xs

def nullFreeFields : List (String × Value) → Bool
  | [] => true
  | (_, v) :: fs => v.nullFree && nullFreeFields fs

end

/-- Message standing for the Go runtime panic raised by
`reflect.TypeOf(v).Kind()` on a nil interface value. -/
def nilKindPanic : String := "panic: reflect.TypeOf(nil).Kind() on nil interface"

namespace Tfimport

/-!
Embedding of `convertToHCLLine` of package `tfimport`
(src/terraform/import/import.go lines 213-252).  The function marshals its
input and unmarshals it into a `map[string]interface\x7b\x7d`; a non-map
input leaves the map nil (the unmarshal error is ignored) and the loop
body never runs.  Inside the loop it dispatches on
`reflect.TypeOf(v).Kind()` — with no nil guard, so a null value panics.
A slice dispatches again on the kind of its first element: composite
first element means one `key \x7b ... \x7d` block per element (recursing
at depth+1), otherwise a `[..]` literal with `%q` elements joined by a
bare comma.  Maps fall into the `default` branch, which prints a
diagnostic to stdout and appends nothing.
-/

mutual

def convertToHCLLine : Value → Nat → Except String String
  | .obj fs, d => convFields fs d
  | _, _ => .ok ""

def convFields : List (String × Value) → Nat → Except String String
  | [], _ => .ok ""
  | (k, v) :: rest, d => do
    let piece ← convOne k v d
    let restOut ← convFields rest d
    .ok (piece ++ restOut)

def convOne (k : String) (v : Value) (d : Nat) : Except String String :=
  match v with
  | .null => .error nilKindPanic
  | .str s => .ok (indentStr d ++ toSnakeCase k ++ " = " ++ goQuote s ++ "\n")
  | .num n => .ok (indentStr d ++ toSnakeCase k ++ " = " ++ toString n ++ "\n")
  | .bool b => .ok (indentStr d ++ toSnakeCase k ++ " = " ++ toString b ++ "\n")
  | .list [] => .ok ""
  | .list (x :: xs) =>
    match x with
    | .list _ => convBlocks k (x :: xs) d
    | .obj _ => convBlocks k (x :: xs) d
    | .null => .error nilKindPanic
    | _ => .ok (indentStr d ++ toSnakeCase k ++ " = [" ++ quotedElems (x :: xs) ++ "]\n")
  | .obj _ => .ok ""

/-- The repeated-block loop: for each element, a lowercased
`\n<indent><key> \x7b\n` header, the recursive serialization at depth+1
and a `<indent>\x7d\n` footer. -/
def convBlocks (k : String) : List Value → Nat → Except String String
  | [], _ => .ok ""
  | e :: es, d => do
    let body ← convertToHCLLine e (d + 1)
    let rest ← convBlocks k es d
    .ok (goToLower ("\n" ++ indentStr d ++ toSnakeCase k ++ " \x7b\n") ++ body
      ++ indentStr d ++ "\x7d\n" ++ rest)

/-- The array-literal element loop: `%q` of each element, separated by a
bare comma. -/
def quotedElems : List Value → String
  | [] => ""
  | [x] => goQuoteValue x
  | x :: y :: xs => goQuoteValue x ++ "," ++ quotedElems (y :: xs)

end

end Tfimport

namespace Stateparser

/-!
Embedding of `convertToHCLLine` of package `stateparser`
(src/terraform/import/import.go lines 319-375).  Differences from the
`tfimport` copy: a `v != nil` guard skips null values; a slice whose first
element is numeric or boolean is rendered as a `[..]` literal of
`%0.f`-formatted elements joined by comma-space; the string-array branch
also joins with comma-space; a non-empty map value is rendered as a
lowercased `\n<indent><key> = \x7b\n` header, the recursive serialization
of the map at depth+1, and a `<indent>\x7d\n` footer, while an empty map
appends nothing.
-/

mutual

def convertToHCLLine : Value → Nat → Except String String
  | .obj fs, d => convFields fs d
  | _, _ => .ok ""

def convFields : List (String × Value) → Nat → Except String String
  | [], _ => .ok ""
  | (k, v) :: rest, d => do
    let piece ← convOne k v d
    let restOut ← convFields rest d
    .ok (piece ++ restOut)

def convOne (k : String) (v : Value) (d : Nat) : Except String String :=
  match v with
  | .null => .ok ""
  | .str s => .ok (indentStr d ++ toSnakeCase k ++ " = " ++ goQuote s ++ "\n")
  | .num n => .ok (indentStr d ++ toSnakeCase k ++ " = " ++ toString n ++ "\n")
  | .bool b => .ok (indentStr d ++ toSnakeCase k ++ " = " ++ toString b ++ "\n")
  | .list [] => .ok ""
  | .list (x :: xs) =>
    match x with
    | .list _ => convBlocks k (x :: xs) d
    | .obj _ => convBlocks k (x :: xs) d
    | .num _ => .ok (indentStr d ++ toSnakeCase k ++ " = [" ++ numElems (x :: xs) ++ "]\n")
    | .bool _ => .ok (indentStr d ++ toSnakeCase k ++ " = [" ++ numElems (x :: xs) ++ "]\n")
    | .null => .error nilKindPanic
    | .str _ => .ok (indentStr d ++ toSnakeCase k ++ " = [" ++ quotedElems (x :: xs) ++ "]\n")
  | .obj [] => .ok ""
  | .obj (f :: fs) => do
    -- the source recurses with `convertToHCLLine(v, indentLevel+1)` on the
    -- map `v` itself; that call immediately unmarshals `v` back into its
    -- fields, i.e. it runs the field loop on `f :: fs` at depth d+1
    let body ← convFields (f :: fs) (d + 1)
    .ok (goToLower ("\n" ++ indentStr d ++ toSnakeCase k ++ " = \x7b\n") ++ body
      ++ indentStr d ++ "\x7d\n")

def convBlocks (k : String) : List Value → Nat → Except String String
  | [], _ => .ok ""
  | e :: es, d => do
    let body ← convertToHCLLine e (d + 1)
    let rest ← convBlocks k es d
    .ok (goToLower ("\n" ++ indentStr d ++ toSnakeCase k ++ " \x7b\n") ++ body
      ++ indentStr d ++ "\x7d\n" ++ rest)

/-- String-array branch: `%q` elements joined by comma-space. -/
def quotedElems : List Value → String
  | [] => ""
  | [x] => goQuoteValue x
  | x :: y :: xs => goQuoteValue x ++ ", " ++ quotedElems (y :: xs)

/-- Numeric-array branch: `%0.f` elements joined by comma-space. -/
def numElems : List Value → String
  | [] => ""
  | [x] => goFmt0f x
  | x :: y :: xs => goFmt0f x ++ ", " ++ numElems (y :: xs)

end

end Stateparser

/-- Concatenation of a list of strings (the order in which a
`strings.Builder` receives its appends). -/
def strConcat : List String → String
  | [] => ""
  | s :: ss => s ++ strConcat ss

/-- Strings joined by a separator (the shape of the element loops that
write a separator after every element except the last). -/
def sepJoin (sep : String) : List String → String
  | [] => ""
  | [s] => s
  | s :: t :: ts => s ++ sep ++ sepJoin sep (t :: ts)

/-- The text the `tfimport` serializer appends when it succeeds. -/
def renderTf (v : Value) (d : Nat) : String :=
  ((Tfimport.convertToHCLLine v d).toOption).getD ""

/-- The text the `stateparser` serializer appends when it succeeds. -/
def renderSp (v : Value) (d : Nat) : String :=
  ((Stateparser.convertToHCLLine v d).toOption).getD ""

/-! ## State snapshot data model (stateparser, import.go lines 265-282) -/

/-- Modelled from the spec (§3) and the struct usage in src: a remotely
discovered resource slated for import (`tfimportables.ResourceDefinition`;
the importables package itself is outside src/). -/
structure ResourceDefinition where
  «Type» : String
  Name : String
  Provider : String
  ImportID : String
deriving Repr, DecidableEq

/-- `ResourceInstance`: the attribute payload of one resource instance. -/
structure ResourceInstance where
  Data : Value
deriving Repr

/-- `StateResource`: one resource of the tfstate snapshot; `Content`
carries raw trailing bytes re-emitted verbatim. -/
structure StateResource where
  Content : String
  Name : String
  «Type» : String
  Provider : String
  Instances : List ResourceInstance
deriving Repr

/-- `State`: the decoded tfstate document. -/
structure State where
  Resources : List StateResource
deriving Repr

/-- Go's `strings.Replace(s, pat, "", 1)`: remove the first occurrence of
`pat`. -/
def removeFirstOcc (pat : List Char) : List Char → List Char
  | [] => []
  | c :: cs =>
    if pat.isPrefixOf (c :: cs) then (c :: cs).drop pat.length
    else c :: removeFirstOcc pat cs

def goReplaceFirstEmpty (s pat : String) : String :=
  ⟨removeFirstOcc pat.toList s.toList⟩

/-- The provider block both converters emit:
`provider <p> \x7b\n\talias = "<p>"\n\x7d\n\n`. -/
def providerBlock (pd : String) : String :=
  "provider " ++ pd ++ " \x7b\n\talias = \"" ++ pd ++ "\"\n\x7d\n\n"

namespace Tfimport

/-!
Embedding of `convertTFStateToHCL` of package `tfimport`
(src/terraform/import/import.go lines 179-201).  Per resource: the
provider alias (with a leading `provider.` stripped) gets a provider
block on first sight; each instance gets a
`resource <type> <name> \x7b` block holding a `provider =` line and the
serialized instance data (passed through the external `sculpt` function,
a parameter of the embedding); the resource's raw `Content` follows its
blocks verbatim.
-/

/-- Provider alias of a state resource: `strings.Replace(resource.Provider,
"provider.", "", 1)`. -/
def providerDef (r : StateResource) : String :=
  goReplaceFirstEmpty r.Provider "provider."

def instancesText (sculpt : String → Value → Value) (pd : String) (typ nm : String) :
    List ResourceInstance → Except String String
  | [] => .ok ""
  | inst :: rest => do
    let body ← Tfimport.convertToHCLLine (sculpt typ inst.Data) 1
    let restOut ← instancesText sculpt pd typ nm rest
    .ok ("resource " ++ typ ++ " " ++ nm ++ " \x7b\n" ++ "\tprovider = " ++ pd ++ "\n"
      ++ body ++ "\x7d\n\n" ++ restOut)

def resourcesText (sculpt : String → Value → Value) :
    List StateResource → List String → Except String String
  | [], _ => .ok ""
  | r :: rs, known => do
    let body ← instancesText sculpt (providerDef r) r.«Type» r.Name r.Instances
    let rest ← resourcesText sculpt rs
      (if known.contains (providerDef r) then known else known ++ [providerDef r])
    .ok ((if known.contains (providerDef r) then "" else providerBlock (providerDef r))
      ++ body ++ r.Content ++ rest)

def convertTFStateToHCL (sculpt : String → Value → Value) (state : State) :
    Except String String :=
  resourcesText sculpt state.Resources []

end Tfimport

namespace Stateparser

/-!
Embedding of `ConvertTFStateToHCL` of package `stateparser`
(src/terraform/import/import.go lines 286-307).  A fixed
`terraform \x7b ... \x7d` header and one `provider onelogin` block are
followed, per resource and instance, by a `resource <type> <name> \x7b`
block holding the serialized instance data (after the external
marshal-into-HCLShape round trip, a parameter `shape` of the embedding);
the resource's raw `Content` follows its blocks verbatim.
-/

def fileHeader : String :=
  "terraform \x7b\n\trequired_providers \x7b\n\t\tonelogin = \x7b\n\t\t\tsource = \"onelogin/onelogin\"\n\t\t\t\x7d\n\t\t\x7d\n\t\x7d\n\n"
    ++ providerBlock "onelogin"

def instancesText (shape : String → Value → Value) (typ nm : String) :
    List ResourceInstance → Except String String
  | [] => .ok ""
  | inst :: rest => do
    let body ← Stateparser.convertToHCLLine (shape typ inst.Data) 1
    let restOut ← instancesText shape typ nm rest
    .ok ("resource " ++ typ ++ " " ++ nm ++ " \x7b\n" ++ body ++ "\x7d\n\n" ++ restOut)

def resourcesText (shape : String → Value → Value) :
    List StateResource → Except String String
  | [] => .ok ""
  | r :: rs => do
    let body ← instancesText shape r.«Type» r.Name r.Instances
    let rest ← resourcesText shape rs
    .ok (body ++ r.Content ++ rest)

def ConvertTFStateToHCL (shape : String → Value → Value) (state : State) :
    Except String String := do
  let body ← resourcesText shape state.Resources
  .ok (fileHeader ++ body)

end Stateparser

/-! ## Existing-definition scanner (import.go lines 118-163)

`filterExistingDefinitions` scans the target file line by line with
`bufio.Scanner` and runs two RE2 regular expressions on each line:

* provider: `(\w*provider\w*)\s(([a-zA-Z\_]*))\s\{`
* resource: `(\w*resource\w*)\s([a-zA-Z\_\-]*)\s([a-zA-Z\_\-]*[0-9]*)\s?\{`

`FindStringSubmatch` returns the leftmost match with Perl-style
greedy-first capture semantics (RE2 matches what a backtracking engine
would).  The embedding implements exactly these two patterns with
continuation-passing combinators: a greedy star tries the longest
consumption first and backtracks on failure of the continuation, and the
whole pattern is tried at every start position from the left. -/

/-- RE2 `\w`: `[0-9A-Za-z_]`. -/
def isWordChar (c : Char) : Bool := c.isAlpha || c.isDigit || c = '_'

/-- RE2 `\s`: `[\t\n\f\r ]`. -/
def isSpaceGo (c : Char) : Bool :=
  c = ' ' || c = '\t' || c = '\n' || c = '\x0c' || c = '\r'

/-- The class `[a-zA-Z\_\-]` of the resource regex's name groups. -/
def isNameChar (c : Char) : Bool := c.isAlpha || c = '_' || c = '-'

/-- The class `[a-zA-Z\_]` of the provider regex's name group. -/
def isProvChar (c : Char) : Bool := c.isAlpha || c = '_'

/-- Greedy Kleene star over a character class: consume as many characters
as possible, backtracking one character at a time when the continuation
fails. -/
def starGreedy (p : Char → Bool) : List Char → (List Char → Option α) → Option α
  | [], k => k []
  | c :: cs, k =>
    if p c then
      match starGreedy p cs k with
      | some r => some r
      | none => k (c :: cs)
    else k (c :: cs)

/-- Capturing greedy star: like `starGreedy` but the continuation also
receives the consumed characters. -/
def starGreedyCap (p : Char → Bool) :
    List Char → (List Char → List Char → Option α) → Option α
  | [], k => k [] []
  | c :: cs, k =>
    if p c then
      match starGreedyCap p cs (fun cap rest => k (c :: cap) rest) with
      | some r => some r
      | none => k [] (c :: cs)
    else k [] (c :: cs)

/-- Match a literal and return the remainder. -/
def dropLit (lit : List Char) (cs : List Char) : Option (List Char) :=
  if lit.isPrefixOf cs then some (cs.drop lit.length) else none

/-- One mandatory `\s`. -/
def matchSpace1 (cs : List Char) (k : List Char → Option α) : Option α :=
  match cs with
  | c :: rest => if isSpaceGo c then k rest else none
  | [] => none

/-- Greedy `\s?`: prefer consuming one space. -/
def matchOptSpace (cs : List Char) (k : List Char → Option α) : Option α :=
  match cs with
  | c :: rest =>
    if isSpaceGo c then
      match k rest with
      | some r => some r
      | none => k (c :: rest)
    else k (c :: rest)
  | [] => k []

def resourceLit : List Char := ['r', 'e', 's', 'o', 'u', 'r', 'c', 'e']

def providerLit : List Char := ['p', 'r', 'o', 'v', 'i', 'd', 'e', 'r']

namespace Tfimport

/-- The resource pattern anchored at the current position; returns the
captures (group 2, group 3). -/
def resourceAt (cs : List Char) : Option (String × String) :=
  starGreedy isWordChar cs fun r1 =>
  (dropLit resourceLit r1).bind fun r2 =>
  starGreedy isWordChar r2 fun r3 =>
  matchSpace1 r3 fun r4 =>
  starGreedyCap isNameChar r4 fun g2 r5 =>
  matchSpace1 r5 fun r6 =>
  starGreedyCap isNameChar r6 fun g3a r7 =>
  starGreedyCap Char.isDigit r7 fun g3b r8 =>
  matchOptSpace r8 fun r9 =>
  match r9 with
  | c :: _ => if c = '\x7b' then some (⟨g2⟩, ⟨g3a ++ g3b⟩) else none
  | [] => none

/-- Leftmost application of the resource pattern
(`FindStringSubmatch`). -/
def resourceFind : List Char → Option (String × String)
  | [] => none
  | c :: cs =>
    match resourceAt (c :: cs) with
    | some r => some r
    | none => resourceFind cs

/-- The provider pattern anchored at the current position; returns the
innermost capture (the provider name). -/
def providerAt (cs : List Char) : Option String :=
  starGreedy isWordChar cs fun r1 =>
  (dropLit providerLit r1).bind fun r2 =>
  starGreedy isWordChar r2 fun r3 =>
  matchSpace1 r3 fun r4 =>
  starGreedyCap isProvChar r4 fun g2 r5 =>
  matchSpace1 r5 fun r6 =>
  match r6 with
  | c :: _ => if c = '\x7b' then some (⟨g2⟩ : String) else none
  | [] => none

/-- Leftmost application of the provider pattern. -/
def providerFind : List Char → Option String
  | [] => none
  | c :: cs =>
    match providerAt (c :: cs) with
    | some r => some r
    | none => providerFind cs

end Tfimport

/-- `bufio.ScanLines` drops a `\r` that precedes the line break. -/
def dropCRend (l : List Char) : List Char :=
  if l.getLast? = some '\r' then l.dropLast else l

/-- `bufio.Scanner` tokenization: lines split at `\n`, the final line
emitted only when non-empty. -/
def splitLinesAux : List Char → List Char → List (List Char)
  | [], acc => if acc.isEmpty then [] else [dropCRend acc.reverse]
  | c :: rest, acc =>
    if c = '\n' then dropCRend acc.reverse :: splitLinesAux rest []
    else splitLinesAux rest (c :: acc)

def goLines (s : String) : List String :=
  (splitLinesAux s.toList []).map fun l => (⟨l⟩ : String)

namespace Tfimport

/-- `definitionKey` extracted from one line by the resource regex:
`subStr[1].subStr[2]` joined with a dot. -/
def resourceKeyOfLine (line : String) : Option String :=
  (resourceFind line.toList).map fun g => g.1 ++ "." ++ g.2

/-- Provider key extracted from one line (the innermost capture). -/
def providerKeyOfLine (line : String) : Option String :=
  providerFind line.toList

/-- `collection["resource"][key]` of the scanner: how many lines matched
the resource regex with this key. -/
def resourceCount (text key : String) : Nat :=
  ((goLines text).filter fun l => resourceKeyOfLine l = some key).length

/-- `collection["provider"][key]` of the scanner. -/
def providerCount (text key : String) : Nat :=
  ((goLines text).filter fun l => providerKeyOfLine l = some key).length

/-- The provider-deduplication loop: `providerMap[d.Provider]++` for every
incoming definition, keys kept in first-insertion order. -/
def collectProviders : List ResourceDefinition → List String → List String
  | [], acc => acc
  | d :: ds, acc =>
    collectProviders ds (if d.Provider ∈ acc then acc else acc ++ [d.Provider])

/-- Embedding of `filterExistingDefinitions` (import.go lines 118-163):
keeps the definitions whose `Type.Name` key never occurred in the scanned
text, and returns the distinct providers of ALL incoming definitions that
are not already declared. -/
def filterExistingDefinitions (text : String) (defs : List ResourceDefinition) :
    List ResourceDefinition × List String :=
  (defs.filter fun d => resourceCount text (d.«Type» ++ "." ++ d.Name) == 0,
   (collectProviders defs []).filter fun p => providerCount text p == 0)

end Tfimport

/-- A string that a fresh line can follow: empty or newline-terminated. -/
def endsNL (s : String) : Prop := s = "" ∨ ∃ t, s = t ++ "\n"

/-- `[a-zA-Z\_\-]*`: the shape of types the resource regex can scan
back. -/
def typeOk (s : String) : Bool := s.toList.all isNameChar

/-- `[a-zA-Z\_\-]*[0-9]*`: the shape of names the resource regex can scan
back (letters, underscores and dashes followed by digits). -/
def nameShapeAux : Bool → List Char → Bool
  | _, [] => true
  | false, c :: cs =>
    if isNameChar c then nameShapeAux false cs
    else if c.isDigit then nameShapeAux true cs
    else false
  | true, c :: cs => if c.isDigit then nameShapeAux true cs else false

def nameOk (s : String) : Bool := nameShapeAux false s.toList

/-! ## Identity disambiguation (src/unnamed/part_000 lines 124-145)

Inside the import loop, `tfImport` rebuilds `resourceName` by scanning the
whole (growing) slice: for every element whose `Name` equals the current
definition's, it forms `_<name>_<n>` with an incrementing counter, updates
`resourceName = <Type>.<newName>` and appends the current definition to
`newResourceDefinitions` — the very slice being scanned.  Per Go `range`
semantics both the outer and the inner loop iterate over the slice value
read at loop entry, so the outer loop runs exactly once per original
definition while the slice doubles its matching entries at each outer
step.  The inner counter is an `int64`; it counts actual slice elements,
so it is embedded as `Nat`. -/

/-- Decimal digit characters. -/
def digitChar : Nat → Char
  | 0 => '0' | 1 => '1' | 2 => '2' | 3 => '3' | 4 => '4'
  | 5 => '5' | 6 => '6' | 7 => '7' | 8 => '8' | 9 => '9'
  | _ => '*'

/-- Decimal digits of a natural number, most significant first
(structural on a fuel argument so that it evaluates by `rfl`). -/
def decDigitsAux : Nat → Nat → List Char
  | 0, _ => []
  | f + 1, n => if n < 10 then [digitChar n] else decDigitsAux f (n / 10) ++ [digitChar (n % 10)]

def decDigits (n : Nat) : List Char := decDigitsAux (n + 1) n

/-- `strconv.FormatInt(n, 10)` for the nonnegative counter values the
disambiguation loop produces. -/
def formatInt (n : Nat) : String := ⟨decDigits n⟩

/-- Occurrences of a name in a slice of definitions. -/
def countName (a : String) : List ResourceDefinition → Nat
  | [] => 0
  | d :: ds => (if d.Name = a then 1 else 0) + countName a ds

/-- The longest all-digit suffix of a character list. -/
def digitSuffix (l : List Char) : List Char :=
  (l.reverse.takeWhile Char.isDigit).reverse

namespace Cmd

/-- The inner scan of the disambiguation loop, threading the counter,
the current `resourceName` and the elements appended so far. -/
def innerLoop (rd : ResourceDefinition) :
    List ResourceDefinition → Nat → String → Nat × String × List ResourceDefinition
  | [], n, rn => (n, rn, [])
  | v :: vs, n, rn =>
    if v.Name = rd.Name then
      match innerLoop rd vs (n + 1)
          (rd.«Type» ++ "." ++ ("_" ++ v.Name ++ "_" ++ formatInt n)) with
      | (n2, rn2, app2) => (n2, rn2, rd :: app2)
    else innerLoop rd vs n rn

/-- The outer loop: one `resourceName` per original definition, the slice
growing by the appended copies. -/
def disambiguateAux : List ResourceDefinition → List ResourceDefinition → List String
  | [], _ => []
  | rd :: rds, s =>
    match innerLoop rd s 0 (rd.«Type» ++ "." ++ rd.Name) with
    | (_, rn, app) => rn :: disambiguateAux rds (s ++ app)

/-- The resource identities passed to `terraform import`, one per
original definition. -/
def disambiguatedNames (defs : List ResourceDefinition) : List String :=
  disambiguateAux defs defs

end Cmd

namespace Cmd

/-!
Control-flow embedding of `tfImport` (src/unnamed/part_000 lines 78-173)
from the point where `main.tf` has been opened.  Outcomes of the external
collaborators (stdin, `terraform init`, the per-resource
`terraform import` invocations, the tfstate read/decode and the final
write) are oracle fields of the environment; the model records whether
`planFile.Close()` ran before the process terminated and how it
terminated.
-/

structure TfImportEnv where
  remoteDefs : List ResourceDefinition
  planText : String
  autoApprove : Bool
  userInput : String
  writeHeadersOk : Bool
  initOk : Bool
  importOk : Nat → Bool
  readStateOk : Bool
  unmarshalOk : Bool
  writeFinalOk : Bool

inductive ExitKind where
  | normal : ExitKind
  | exitZero : ExitKind
  | fatal : ExitKind
deriving Repr, DecidableEq

structure RunResult where
  closed : Bool
  exit : ExitKind
deriving Repr, DecidableEq

/-- Index of the first failing `terraform import` among `len` sequential
invocations starting at `i`. -/
def firstFailAux (ok : Nat → Bool) : Nat → Nat → Option Nat
  | 0, _ => none
  | k + 1, i => if ok i then firstFailAux ok k (i + 1) else some i

def firstImportFailure (ok : Nat → Bool) (len : Nat) : Option Nat :=
  firstFailAux ok len 0

def tfImportRun (env : TfImportEnv) : RunResult :=
  let newDefs := (Tfimport.filterExistingDefinitions env.planText env.remoteDefs).1
  if newDefs.length = 0 then
    -- "No new resources": planFile.Close(); os.Exit(0)
    ⟨true, .exitZero⟩
  else if ¬ (env.autoApprove = true ∨ goToLower env.userInput = "y"
      ∨ goToLower env.userInput = "yes") then
    -- user aborted: planFile.Close(); os.Exit(0)
    ⟨true, .exitZero⟩
  else if env.writeHeadersOk = false then
    -- WriteHCLDefinitionHeaders error: planFile.Close(); log.Fatal
    ⟨true, .fatal⟩
  else if env.initOk = false then
    -- terraform init error: planFile.Close(); log.Fatal
    ⟨true, .fatal⟩
  else
    match firstImportFailure env.importOk newDefs.length with
    | some _ =>
      -- terraform import error: log.Fatal WITHOUT closing planFile
      ⟨false, .fatal⟩
    | none =>
      if env.readStateOk = false then
        -- tfstate read error: planFile.Close(); log.Fatalln
        ⟨true, .fatal⟩
      else if env.unmarshalOk = false then
        -- tfstate decode error: planFile.Close(); log.Fatalln
        ⟨true, .fatal⟩
      else if env.writeFinalOk = false then
        -- final write error: planFile.Close(); print; fall through to the
        -- second planFile.Close() and return
        ⟨true, .normal⟩
      else
        -- success: planFile.Close() and return
        ⟨true, .normal⟩

end Cmd

theorem nullFree_cons_iff (x : Value) (xs : List Value) :
    nullFreeList (x :: xs) = true ↔ x.nullFree = true ∧ nullFreeList xs = true := by
  simp [nullFreeList]

mutual

/-- On null-free input the `tfimport` serializer cannot panic. -/
theorem Tfimport.convOk : (v : Value) → (d : Nat) → v.nullFree = true →
    ∃ s, Tfimport.convertToHCLLine v d = .ok s
  | .null, _, h => by simp [Value.nullFree] at h
  | .str s, d, _ => ⟨"", rfl⟩
  | .num n, d, _ => ⟨"", rfl⟩
  | .bool b, d, _ => ⟨"", rfl⟩
  | .list xs, d, _ => ⟨"", rfl⟩
  | .obj fs, d, h => Tfimport.convFieldsOk fs d (by simpa [Value.nullFree] using h)
termination_by v _ _ => sizeOf v

theorem Tfimport.convFieldsOk : (fs : List (String × Value)) → (d : Nat) →
    nullFreeFields fs = true → ∃ s, Tfimport.convFields fs d = .ok s
  | [], _, _ => ⟨"", rfl⟩
  | (k, v) :: rest, d, h => by
    have h1 : v.nullFree = true ∧ nullFreeFields rest = true := by
      simpa [nullFreeFields] using h
    obtain ⟨s1, e1⟩ := Tfimport.convOneOk k v d h1.1
    obtain ⟨s2, e2⟩ := Tfimport.convFieldsOk rest d h1.2
    exact ⟨s1 ++ s2, by rw [Tfimport.convFields, e1, e2]; rfl⟩
termination_by fs _ _ => sizeOf fs

theorem Tfimport.convOneOk : (k : String) → (v : Value) → (d : Nat) → v.nullFree = true →
    ∃ s, Tfimport.convOne k v d = .ok s
  | _, .null, _, h => by simp [Value.nullFree] at h
  | k, .str s, d, _ => ⟨_, rfl⟩
  | k, .num n, d, _ => ⟨_, rfl⟩
  | k, .bool b, d, _ => ⟨_, rfl⟩
  | k, .obj fs, d, _ => ⟨"", rfl⟩
  | k, .list [], d, _ => ⟨"", rfl⟩
  | k, .list (x :: xs), d, h => by
    have hl : nullFreeList (x :: xs) = true := by simpa [Value.nullFree] using h
    match x, hl with
    | .null, hl => simp [nullFreeList, Value.nullFree] at hl
    | .str s, hl => exact ⟨_, rfl⟩
    | .num n, hl => exact ⟨_, rfl⟩
    | .bool b, hl => exact ⟨_, rfl⟩
    | .list ys, hl => exact Tfimport.convBlocksOk k (.list ys :: xs) d hl
    | .obj gs, hl => exact Tfimport.convBlocksOk k (.obj gs :: xs) d hl
termination_by _ v _ _ => sizeOf v

theorem Tfimport.convBlocksOk : (k : String) → (es : List Value) → (d : Nat) →
    nullFreeList es = true → ∃ s, Tfimport.convBlocks k es d = .ok s
  | _, [], _, _ => ⟨"", rfl⟩
  | k, e :: es, d, h => by
    have h1 : e.nullFree = true ∧ nullFreeList es = true := (nullFree_cons_iff e es).mp h
    obtain ⟨s1, e1⟩ := Tfimport.convOk e (d + 1) h1.1
    obtain ⟨s2, e2⟩ := Tfimport.convBlocksOk k es d h1.2
    exact ⟨goToLower ("\n" ++ indentStr d ++ toSnakeCase k ++ " \x7b\n") ++ s1
      ++ indentStr d ++ "\x7d\n" ++ s2, by rw [Tfimport.convBlocks, e1, e2]; rfl⟩
termination_by _ es _ _ => sizeOf es

end

mutual

/-- On null-free input the `stateparser` serializer cannot panic. -/
theorem Stateparser.spConvOk : (v : Value) → (d : Nat) → v.nullFree = true →
    ∃ s, Stateparser.convertToHCLLine v d = .ok s
  | .null, _, h => by simp [Value.nullFree] at h
  | .str s, d, _ => ⟨"", rfl⟩
  | .num n, d, _ => ⟨"", rfl⟩
  | .bool b, d, _ => ⟨"", rfl⟩
  | .list xs, d, _ => ⟨"", rfl⟩
  | .obj fs, d, h => Stateparser.spConvFieldsOk fs d (by simpa [Value.nullFree] using h)
termination_by v _ _ => sizeOf v

theorem Stateparser.spConvFieldsOk : (fs : List (String × Value)) → (d : Nat) →
    nullFreeFields fs = true → ∃ s, Stateparser.convFields fs d = .ok s
  | [], _, _ => ⟨"", rfl⟩
  | (k, v) :: rest, d, h => by
    have h1 : v.nullFree = true ∧ nullFreeFields rest = true := by
      simpa [nullFreeFields] using h
    obtain ⟨s1, e1⟩ := Stateparser.spConvOneOk k v d h1.1
    obtain ⟨s2, e2⟩ := Stateparser.spConvFieldsOk rest d h1.2
    exact ⟨s1 ++ s2, by rw [Stateparser.convFields, e1, e2]; rfl⟩
termination_by fs _ _ => sizeOf fs

theorem Stateparser.spConvOneOk : (k : String) → (v : Value) → (d : Nat) → v.nullFree = true →
    ∃ s, Stateparser.convOne k v d = .ok s
  | _, .null, _, _ => ⟨"", rfl⟩
  | k, .str s, d, _ => ⟨_, rfl⟩
  | k, .num n, d, _ => ⟨_, rfl⟩
  | k, .bool b, d, _ => ⟨_, rfl⟩
  | k, .obj [], d, _ => ⟨"", rfl⟩
  | k, .obj (f :: fs), d, h => by
    obtain ⟨s1, e1⟩ := Stateparser.spConvFieldsOk (f :: fs) (d + 1)
      (by simpa [Value.nullFree] using h)
    exact ⟨goToLower ("\n" ++ indentStr d ++ toSnakeCase k ++ " = \x7b\n") ++ s1
      ++ indentStr d ++ "\x7d\n", by rw [Stateparser.convOne, e1]; rfl⟩
  | k, .list [], d, _ => ⟨"", rfl⟩
  | k, .list (x :: xs), d, h => by
    have hl : nullFreeList (x :: xs) = true := by simpa [Value.nullFree] using h
    match x, hl with
    | .null, hl => simp [nullFreeList, Value.nullFree] at hl
    | .str s, hl => exact ⟨_, rfl⟩
    | .num n, hl => exact ⟨_, rfl⟩
    | .bool b, hl => exact ⟨_, rfl⟩
    | .list ys, hl => exact Stateparser.spConvBlocksOk k (.list ys :: xs) d hl
    | .obj gs, hl => exact Stateparser.spConvBlocksOk k (.obj gs :: xs) d hl
termination_by _ v _ _ => sizeOf v

theorem Stateparser.spConvBlocksOk : (k : String) → (es : List Value) → (d : Nat) →
    nullFreeList es = true → ∃ s, Stateparser.convBlocks k es d = .ok s
  | _, [], _, _ => ⟨"", rfl⟩
  | k, e :: es, d, h => by
    have h1 : e.nullFree = true ∧ nullFreeList es = true := (nullFree_cons_iff e es).mp h
    obtain ⟨s1, e1⟩ := Stateparser.spConvOk e (d + 1) h1.1
    obtain ⟨s2, e2⟩ := Stateparser.spConvBlocksOk k es d h1.2
    exact ⟨goToLower ("\n" ++ indentStr d ++ toSnakeCase k ++ " \x7b\n") ++ s1
      ++ indentStr d ++ "\x7d\n" ++ s2, by rw [Stateparser.convBlocks, e1, e2]; rfl⟩
termination_by _ es _ _ => sizeOf es

end

/-- On null-free input the `tfimport` serializer returns exactly the
rendered text. -/
theorem Tfimport.conv_render (v : Value) (d : Nat) (h : v.nullFree = true) :
    Tfimport.convertToHCLLine v d = .ok (renderTf v d) := by
  obtain ⟨s, e⟩ := Tfimport.convOk v d h
  rw [e]; simp [renderTf, e, Except.toOption]

/-- On null-free input the `stateparser` serializer returns exactly the
rendered text. -/
theorem Stateparser.spConv_render (v : Value) (d : Nat) (h : v.nullFree = true) :
    Stateparser.convertToHCLLine v d = .ok (renderSp v d) := by
  obtain ⟨s, e⟩ := Stateparser.spConvOk v d h
  rw [e]; simp [renderSp, e, Except.toOption]

/-- Closed form of the `tfimport` repeated-block loop: one block per
element, each wrapping the element's own serialization at depth+1. -/
theorem Tfimport.convBlocks_eq (k : String) (es : List Value) (d : Nat)
    (h : nullFreeList es = true) :
    Tfimport.convBlocks k es d = .ok (strConcat (es.map fun e =>
      goToLower ("\n" ++ indentStr d ++ toSnakeCase k ++ " \x7b\n")
        ++ renderTf e (d + 1) ++ indentStr d ++ "\x7d\n")) := by
  induction es with
  | nil => rfl
  | cons e es ih =>
    have h1 := (nullFree_cons_iff e es).mp h
    rw [Tfimport.convBlocks, Tfimport.conv_render e (d + 1) h1.1, ih h1.2]
    rfl

/-- Closed form of the `stateparser` repeated-block loop. -/
theorem Stateparser.spConvBlocks_eq (k : String) (es : List Value) (d : Nat)
    (h : nullFreeList es = true) :
    Stateparser.convBlocks k es d = .ok (strConcat (es.map fun e =>
      goToLower ("\n" ++ indentStr d ++ toSnakeCase k ++ " \x7b\n")
        ++ renderSp e (d + 1) ++ indentStr d ++ "\x7d\n")) := by
  induction es with
  | nil => rfl
  | cons e es ih =>
    have h1 := (nullFree_cons_iff e es).mp h
    rw [Stateparser.convBlocks, Stateparser.spConv_render e (d + 1) h1.1, ih h1.2]
    rfl


/-! ## Helper lemmas for single-binding maps and element loops -/

/-- A one-binding map serializes to exactly its binding's text
(`tfimport`). -/
theorem Tfimport.conv_single (k : String) (v : Value) (d : Nat) (s : String)
    (h : Tfimport.convOne k v d = .ok s) :
    Tfimport.convertToHCLLine (.obj [(k, v)]) d = .ok s := by
  show Tfimport.convFields [(k, v)] d = .ok s
  rw [Tfimport.convFields, h]
  show Except.ok (s ++ "") = Except.ok s
  rw [String.append_empty]

/-- A one-binding map serializes to exactly its binding's text
(`stateparser`). -/
theorem Stateparser.spConv_single (k : String) (v : Value) (d : Nat) (s : String)
    (h : Stateparser.convOne k v d = .ok s) :
    Stateparser.convertToHCLLine (.obj [(k, v)]) d = .ok s := by
  show Stateparser.convFields [(k, v)] d = .ok s
  rw [Stateparser.convFields, h]
  show Except.ok (s ++ "") = Except.ok s
  rw [String.append_empty]

/-- The `stateparser` string-array loop quotes every element and joins
with comma-space. -/
theorem Stateparser.spQuotedElems_strs : (ss : List String) →
    Stateparser.quotedElems (ss.map Value.str) = sepJoin ", " (ss.map goQuote)
  | [] => rfl
  | [_] => rfl
  | s :: t :: ts => by
    show goQuote s ++ ", " ++ Stateparser.quotedElems ((t :: ts).map Value.str) = _
    rw [Stateparser.spQuotedElems_strs (t :: ts)]
    rfl

/-- The `tfimport` array loop quotes every element and joins with a bare
comma. -/
theorem Tfimport.quotedElems_strs : (ss : List String) →
    Tfimport.quotedElems (ss.map Value.str) = sepJoin "," (ss.map goQuote)
  | [] => rfl
  | [_] => rfl
  | s :: t :: ts => by
    show goQuote s ++ "," ++ Tfimport.quotedElems ((t :: ts).map Value.str) = _
    rw [Tfimport.quotedElems_strs (t :: ts)]
    rfl

/-! ## Claims about the Value Serializer -/

/-- C4 (code_bug evaluation): on the input map
`\x7b"a": null, "b": "ok"\x7d` the `tfimport` serializer hits
`reflect.TypeOf(nil).Kind()` and panics instead of omitting `a` and
serializing the sibling `b` (the `stateparser` copy guards `v != nil` and
behaves as the claim states). -/
theorem claim_C4_panic :
    Tfimport.convertToHCLLine (.obj [("a", .null), ("b", .str "ok")]) 1 =
      .error nilKindPanic
    ∧ Stateparser.convertToHCLLine (.obj [("a", .null), ("b", .str "ok")]) 1 =
      .ok "\tb = \"ok\"\n" :=
  ⟨rfl, rfl⟩

/-- C5 (counterexample): the `tfimport` serializer joins list elements
with a bare comma, not comma-space, on `\x7b"roles": ["a","b"]\x7d`. -/
theorem claim_C5_cex :
    Tfimport.convertToHCLLine (.obj [("roles", .list [.str "a", .str "b"])]) 1 =
      .ok "\troles = [\"a\",\"b\"]\n"
    ∧ Tfimport.convertToHCLLine (.obj [("roles", .list [.str "a", .str "b"])]) 1 ≠
      .ok "\troles = [\"a\", \"b\"]\n" := by
  refine ⟨rfl, fun h => ?_⟩
  have h2 : ("\troles = [\"a\",\"b\"]\n" : String) = "\troles = [\"a\", \"b\"]\n" :=
    Except.ok.inj (rfl.symm.trans h)
  revert h2; decide

/-- C5 (amended): for a non-empty list of strings the `stateparser`
serializer emits `key = ["v1", "v2", ...]` with comma-space separation and
every element quoted, and the `tfimport` serializer emits the same line
with bare-comma separation. -/
theorem claim_C5 (k : String) (ss : List String) (d : Nat) (h : ss ≠ []) :
    Stateparser.convertToHCLLine (.obj [(k, .list (ss.map Value.str))]) d =
      .ok (indentStr d ++ toSnakeCase k ++ " = [" ++ sepJoin ", " (ss.map goQuote) ++ "]\n")
    ∧ Tfimport.convertToHCLLine (.obj [(k, .list (ss.map Value.str))]) d =
      .ok (indentStr d ++ toSnakeCase k ++ " = [" ++ sepJoin "," (ss.map goQuote) ++ "]\n") := by
  match ss, h with
  | s :: rest, _ =>
    constructor
    · refine Stateparser.spConv_single k _ d _ ?_
      show Except.ok (indentStr d ++ toSnakeCase k ++ " = ["
        ++ Stateparser.quotedElems ((s :: rest).map Value.str) ++ "]\n") = _
      rw [Stateparser.spQuotedElems_strs (s :: rest)]
    · refine Tfimport.conv_single k _ d _ ?_
      show Except.ok (indentStr d ++ toSnakeCase k ++ " = ["
        ++ Tfimport.quotedElems ((s :: rest).map Value.str) ++ "]\n") = _
      rw [Tfimport.quotedElems_strs (s :: rest)]

/-- C5 witness: `\x7b"roles": ["a","b"]\x7d` at depth 1. -/
theorem claim_C5_witness :
    Stateparser.convertToHCLLine (.obj [("roles", .list [.str "a", .str "b"])]) 1 =
      .ok "\troles = [\"a\", \"b\"]\n" := by
  have h := claim_C5 "roles" ["a", "b"] 1 (by decide)
  show Stateparser.convertToHCLLine (.obj [("roles", .list (List.map Value.str ["a", "b"]))]) 1 = _
  rw [h.1]
  rfl

/-- C6 (confirmed): a list of composite (null-free) values is serialized
by both serializers as one `key \x7b ... \x7d` block per element, each
block wrapping the element's recursive serialization at depth+1 — never a
single array literal. -/
theorem claim_C6 (k : String) (x : Value) (xs : List Value) (d : Nat)
    (hcomp : ∀ y ∈ x :: xs, y.isComposite = true)
    (hnf : nullFreeList (x :: xs) = true) :
    Tfimport.convertToHCLLine (.obj [(k, .list (x :: xs))]) d =
      .ok (strConcat ((x :: xs).map fun e =>
        goToLower ("\n" ++ indentStr d ++ toSnakeCase k ++ " \x7b\n")
          ++ renderTf e (d + 1) ++ indentStr d ++ "\x7d\n"))
    ∧ Stateparser.convertToHCLLine (.obj [(k, .list (x :: xs))]) d =
      .ok (strConcat ((x :: xs).map fun e =>
        goToLower ("\n" ++ indentStr d ++ toSnakeCase k ++ " \x7b\n")
          ++ renderSp e (d + 1) ++ indentStr d ++ "\x7d\n")) := by
  have hx : x.isComposite = true := hcomp x (List.mem_cons_self x xs)
  match x, hx with
  | .list ys, _ =>
    exact ⟨Tfimport.conv_single k _ d _ (Tfimport.convBlocks_eq k (.list ys :: xs) d hnf),
      Stateparser.spConv_single k _ d _ (Stateparser.spConvBlocks_eq k (.list ys :: xs) d hnf)⟩
  | .obj gs, _ =>
    exact ⟨Tfimport.conv_single k _ d _ (Tfimport.convBlocks_eq k (.obj gs :: xs) d hnf),
      Stateparser.spConv_single k _ d _ (Stateparser.spConvBlocks_eq k (.obj gs :: xs) d hnf)⟩

/-- C6 witness: `\x7b"rules": [\x7b"op": "eq"\x7d]\x7d` serializes to a
nested block, not an array literal. -/
theorem claim_C6_witness :
    Tfimport.convertToHCLLine (.obj [("rules", .list [.obj [("op", .str "eq")]])]) 1 =
      .ok "\n\trules \x7b\n\t\top = \"eq\"\n\t\x7d\n"
    ∧ Stateparser.convertToHCLLine (.obj [("rules", .list [.obj [("op", .str "eq")]])]) 1 =
      .ok "\n\trules \x7b\n\t\top = \"eq\"\n\t\x7d\n" := by
  have h := claim_C6 "rules" (.obj [("op", .str "eq")]) [] 1 (by decide) (by decide)
  exact ⟨by rw [h.1]; rfl, by rw [h.2]; rfl⟩


/-- C7 (counterexample): the `tfimport` serializer has no `reflect.Map`
case — a non-empty nested map falls into the `default` branch, which
appends nothing (only a stdout diagnostic), while the claim predicts a
`key = \x7b ... \x7d` emission (shown here as produced by the
`stateparser` copy). -/
theorem claim_C7_cex :
    Tfimport.convertToHCLLine (.obj [("a", .obj [("b", .str "c")])]) 1 = .ok ""
    ∧ Tfimport.convertToHCLLine (.obj [("a", .obj [("b", .str "c")])]) 1 ≠
      .ok (goToLower ("\n" ++ indentStr 1 ++ toSnakeCase "a" ++ " = \x7b\n")
        ++ renderSp (.obj [("b", .str "c")]) 2 ++ indentStr 1 ++ "\x7d\n") := by
  refine ⟨rfl, fun h => ?_⟩
  have h2 : ("" : String) = goToLower ("\n" ++ indentStr 1 ++ toSnakeCase "a" ++ " = \x7b\n")
      ++ renderSp (.obj [("b", .str "c")]) 2 ++ indentStr 1 ++ "\x7d\n" :=
    Except.ok.inj (rfl.symm.trans h)
  revert h2; decide

/-- C7 (amended): the `stateparser` serializer emits, for a non-empty
(null-free) nested map, a lowercased `\n<indent><key> = \x7b` header, the
recursive serialization of the map at depth+1 and a closing
`<indent>\x7d`; the `tfimport` serializer skips the key entirely. -/
theorem claim_C7 (k : String) (f : String × Value) (fs : List (String × Value)) (d : Nat)
    (hnf : nullFreeFields (f :: fs) = true) :
    Stateparser.convertToHCLLine (.obj [(k, .obj (f :: fs))]) d =
      .ok (goToLower ("\n" ++ indentStr d ++ toSnakeCase k ++ " = \x7b\n")
        ++ renderSp (.obj (f :: fs)) (d + 1) ++ indentStr d ++ "\x7d\n")
    ∧ Tfimport.convertToHCLLine (.obj [(k, .obj (f :: fs))]) d = .ok "" := by
  constructor
  · refine Stateparser.spConv_single k _ d _ ?_
    have hr : Stateparser.convFields (f :: fs) (d + 1) =
        .ok (renderSp (.obj (f :: fs)) (d + 1)) :=
      Stateparser.spConv_render (.obj (f :: fs)) (d + 1) (by simpa [Value.nullFree] using hnf)
    show (do
      let body ← Stateparser.convFields (f :: fs) (d + 1)
      Except.ok (goToLower ("\n" ++ indentStr d ++ toSnakeCase k ++ " = \x7b\n") ++ body
        ++ indentStr d ++ "\x7d\n")) = _
    rw [hr]
    rfl
  · exact Tfimport.conv_single k _ d _ rfl

/-- C7 witness: `\x7b"a": \x7b"b": "c"\x7d\x7d` at depth 1. -/
theorem claim_C7_witness :
    Stateparser.convertToHCLLine (.obj [("a", .obj [("b", .str "c")])]) 1 =
      .ok "\n\ta = \x7b\n\t\tb = \"c\"\n\t\x7d\n" := by
  have h := claim_C7 "a" ("b", .str "c") [] 1 (by decide)
  rw [h.1]; rfl

/-- C10 (confirmed): a non-empty list is routed between array-literal and
repeated-block rendering solely by the runtime shape of its first
element; with a composite first element every element goes down the block
path, and a scalar serializes recursively to nothing at all (so scalar
elements on the block path contribute empty block bodies). -/
theorem claim_C10 (k : String) (x : Value) (xs : List Value) (d : Nat) :
    (x.isComposite = true → nullFreeList (x :: xs) = true →
      Tfimport.convertToHCLLine (.obj [(k, .list (x :: xs))]) d =
        .ok (strConcat ((x :: xs).map fun e =>
          goToLower ("\n" ++ indentStr d ++ toSnakeCase k ++ " \x7b\n")
            ++ renderTf e (d + 1) ++ indentStr d ++ "\x7d\n"))
      ∧ Stateparser.convertToHCLLine (.obj [(k, .list (x :: xs))]) d =
        .ok (strConcat ((x :: xs).map fun e =>
          goToLower ("\n" ++ indentStr d ++ toSnakeCase k ++ " \x7b\n")
            ++ renderSp e (d + 1) ++ indentStr d ++ "\x7d\n")))
    ∧ (x.isScalar = true →
      Tfimport.convertToHCLLine (.obj [(k, .list (x :: xs))]) d =
        .ok (indentStr d ++ toSnakeCase k ++ " = [" ++ Tfimport.quotedElems (x :: xs) ++ "]\n")
      ∧ ∃ elems, Stateparser.convertToHCLLine (.obj [(k, .list (x :: xs))]) d =
        .ok (indentStr d ++ toSnakeCase k ++ " = [" ++ elems ++ "]\n"))
    ∧ (x.isScalar = true →
      Tfimport.convertToHCLLine x d = .ok "" ∧ Stateparser.convertToHCLLine x d = .ok "") := by
  refine ⟨fun hx hnf => ?_, fun hx => ?_, fun hx => ?_⟩
  · match x, hx with
    | .list ys, _ =>
      exact ⟨Tfimport.conv_single k _ d _ (Tfimport.convBlocks_eq k (.list ys :: xs) d hnf),
        Stateparser.spConv_single k _ d _ (Stateparser.spConvBlocks_eq k (.list ys :: xs) d hnf)⟩
    | .obj gs, _ =>
      exact ⟨Tfimport.conv_single k _ d _ (Tfimport.convBlocks_eq k (.obj gs :: xs) d hnf),
        Stateparser.spConv_single k _ d _ (Stateparser.spConvBlocks_eq k (.obj gs :: xs) d hnf)⟩
  · match x, hx with
    | .str s, _ =>
      exact ⟨Tfimport.conv_single k _ d _ rfl,
        Stateparser.quotedElems (.str s :: xs), Stateparser.spConv_single k _ d _ rfl⟩
    | .num n, _ =>
      exact ⟨Tfimport.conv_single k _ d _ rfl,
        Stateparser.numElems (.num n :: xs), Stateparser.spConv_single k _ d _ rfl⟩
    | .bool b, _ =>
      exact ⟨Tfimport.conv_single k _ d _ rfl,
        Stateparser.numElems (.bool b :: xs), Stateparser.spConv_single k _ d _ rfl⟩
  · match x, hx with
    | .str s, _ => exact ⟨rfl, rfl⟩
    | .num n, _ => exact ⟨rfl, rfl⟩
    | .bool b, _ => exact ⟨rfl, rfl⟩

/-- C10 witness: a composite-first list with a trailing scalar element
produces two blocks (the scalar's body empty), and a scalar-first list
with two strings produces a single array-literal line. -/
theorem claim_C10_witness :
    Tfimport.convertToHCLLine
        (.obj [("rules", .list [.obj [("op", .str "eq")], .str "skip"])]) 1 =
      .ok "\n\trules \x7b\n\t\top = \"eq\"\n\t\x7d\n\n\trules \x7b\n\t\x7d\n"
    ∧ Tfimport.convertToHCLLine (.obj [("roles", .list [.str "a", .str "b"])]) 1 =
      .ok "\troles = [\"a\",\"b\"]\n"
    ∧ Tfimport.convertToHCLLine (.str "skip") 1 = .ok ""
    ∧ Stateparser.convertToHCLLine (.str "skip") 1 = .ok "" := by
  have h1 := (claim_C10 "rules" (.obj [("op", .str "eq")]) [.str "skip"] 1).1
    (by decide) (by decide)
  have h2 := (claim_C10 "roles" (.str "a") [.str "b"] 1).2.1 (by decide)
  have h3 := (claim_C10 "roles" (.str "skip") [] 1).2.2 (by decide)
  exact ⟨by rw [h1.1]; rfl, by rw [h2.1]; rfl, h3.1, h3.2⟩


/-! ## Claim C8: byte-for-byte Content passthrough -/

/-- Every resource's trailing `Content` appears in the `tfimport`
converter output immediately after that resource's generated blocks. -/
theorem Tfimport.resourcesText_mem (sculpt : String → Value → Value) :
    ∀ (rs : List StateResource) (known : List String) (out : String),
      Tfimport.resourcesText sculpt rs known = .ok out →
      ∀ r ∈ rs, ∃ pre body post,
        Tfimport.instancesText sculpt (Tfimport.providerDef r) r.«Type» r.Name r.Instances =
          .ok body
        ∧ out = pre ++ body ++ r.Content ++ post := by
  intro rs
  induction rs with
  | nil => intro known out h r hr; exact absurd hr (List.not_mem_nil r)
  | cons r0 rs ih =>
    intro known out h r hr
    rw [Tfimport.resourcesText] at h
    cases e1 : Tfimport.instancesText sculpt (Tfimport.providerDef r0) r0.«Type» r0.Name
        r0.Instances with
    | error msg => rw [e1] at h; exact Except.noConfusion h
    | ok b0 =>
      rw [e1] at h
      cases e2 : Tfimport.resourcesText sculpt rs
          (if known.contains (Tfimport.providerDef r0) then known
           else known ++ [Tfimport.providerDef r0]) with
      | error msg => rw [e2] at h; exact Except.noConfusion h
      | ok rest =>
        rw [e2] at h
        have hout := Except.ok.inj h
        rcases List.mem_cons.mp hr with rfl | hr2
        · exact ⟨(if known.contains (Tfimport.providerDef r) then ""
            else providerBlock (Tfimport.providerDef r)), b0, rest, e1, hout.symm⟩
        · obtain ⟨pre, body, post, hin, hrest⟩ := ih _ rest e2 r hr2
          refine ⟨(if known.contains (Tfimport.providerDef r0) then ""
            else providerBlock (Tfimport.providerDef r0)) ++ b0 ++ r0.Content ++ pre,
            body, post, hin, ?_⟩
          rw [← hout, hrest]
          simp [String.append_assoc]

/-- Every resource's trailing `Content` appears in the `stateparser`
converter output immediately after that resource's generated blocks. -/
theorem Stateparser.spResourcesText_mem (shape : String → Value → Value) :
    ∀ (rs : List StateResource) (out : String),
      Stateparser.resourcesText shape rs = .ok out →
      ∀ r ∈ rs, ∃ pre body post,
        Stateparser.instancesText shape r.«Type» r.Name r.Instances = .ok body
        ∧ out = pre ++ body ++ r.Content ++ post := by
  intro rs
  induction rs with
  | nil => intro out h r hr; exact absurd hr (List.not_mem_nil r)
  | cons r0 rs ih =>
    intro out h r hr
    rw [Stateparser.resourcesText] at h
    cases e1 : Stateparser.instancesText shape r0.«Type» r0.Name r0.Instances with
    | error msg => rw [e1] at h; exact Except.noConfusion h
    | ok b0 =>
      rw [e1] at h
      cases e2 : Stateparser.resourcesText shape rs with
      | error msg => rw [e2] at h; exact Except.noConfusion h
      | ok rest =>
        rw [e2] at h
        have hout := Except.ok.inj h
        rcases List.mem_cons.mp hr with rfl | hr2
        · exact ⟨"", b0, rest, e1, by rw [← hout]; rw [String.empty_append]⟩
        · obtain ⟨pre, body, post, hin, hrest⟩ := ih rest e2 r hr2
          refine ⟨b0 ++ r0.Content ++ pre, body, post, hin, ?_⟩
          rw [← hout, hrest]
          simp [String.append_assoc]

/-- C8 (confirmed): whenever either converter succeeds, every
`StateResource`'s raw trailing `Content` is written byte-for-byte,
immediately after that resource's generated block(s). -/
theorem claim_C8 (sculpt shape : String → Value → Value) (state : State)
    (outTf outSp : String)
    (h1 : Tfimport.convertTFStateToHCL sculpt state = .ok outTf)
    (h2 : Stateparser.ConvertTFStateToHCL shape state = .ok outSp) :
    (∀ r ∈ state.Resources, ∃ pre body post,
      Tfimport.instancesText sculpt (Tfimport.providerDef r) r.«Type» r.Name r.Instances =
        .ok body
      ∧ outTf = pre ++ body ++ r.Content ++ post)
    ∧ (∀ r ∈ state.Resources, ∃ pre body post,
      Stateparser.instancesText shape r.«Type» r.Name r.Instances = .ok body
      ∧ outSp = pre ++ body ++ r.Content ++ post) := by
  constructor
  · exact Tfimport.resourcesText_mem sculpt state.Resources [] outTf h1
  · intro r hr
    rw [Stateparser.ConvertTFStateToHCL] at h2
    cases e : Stateparser.resourcesText shape state.Resources with
    | error msg => rw [e] at h2; exact Except.noConfusion h2
    | ok b =>
      rw [e] at h2
      have hout := Except.ok.inj h2
      obtain ⟨pre, body, post, hin, hb⟩ := Stateparser.spResourcesText_mem shape _ b e r hr
      refine ⟨Stateparser.fileHeader ++ pre, body, post, hin, ?_⟩
      rw [← hout, hb]
      simp [String.append_assoc]

/-- C8 witness: a one-resource state with trailing content `LEGACY`. -/
theorem claim_C8_witness :
    ∃ pre body post,
      Tfimport.instancesText (fun _ v => v)
        (Tfimport.providerDef ⟨"LEGACY", "x", "onelogin_apps", "provider.onelogin",
          [⟨.obj [("name", .str "x")]⟩]⟩) "onelogin_apps" "x"
        [⟨.obj [("name", .str "x")]⟩] = .ok body
      ∧ ("provider onelogin \x7b\n\talias = \"onelogin\"\n\x7d\n\nresource onelogin_apps x \x7b\n\tprovider = onelogin\n\tname = \"x\"\n\x7d\n\nLEGACY" : String)
        = pre ++ body ++ "LEGACY" ++ post := by
  have h := (claim_C8 (fun _ v => v) (fun _ v => v)
    ⟨[⟨"LEGACY", "x", "onelogin_apps", "provider.onelogin",
      [⟨.obj [("name", .str "x")]⟩]⟩]⟩
    "provider onelogin \x7b\n\talias = \"onelogin\"\n\x7d\n\nresource onelogin_apps x \x7b\n\tprovider = onelogin\n\tname = \"x\"\n\x7d\n\nLEGACY"
    (Stateparser.fileHeader ++ "resource onelogin_apps x \x7b\n\tname = \"x\"\n\x7d\n\nLEGACY")
    rfl rfl).1
    ⟨"LEGACY", "x", "onelogin_apps", "provider.onelogin", [⟨.obj [("name", .str "x")]⟩]⟩
    (List.mem_singleton.mpr rfl)
  exact h


/-! ## Claims C2 and C3: the reconciliation filter -/

theorem collectProviders_mem : ∀ (ds : List ResourceDefinition) (acc : List String) (p : String),
    p ∈ Tfimport.collectProviders ds acc ↔ p ∈ acc ∨ ∃ d ∈ ds, d.Provider = p := by
  intro ds
  induction ds with
  | nil => intro acc p; simp [Tfimport.collectProviders]
  | cons d ds ih =>
    intro acc p
    rw [Tfimport.collectProviders]
    by_cases hd : d.Provider ∈ acc
    · rw [if_pos hd, ih]
      constructor
      · rintro (h | ⟨d2, hd2, rfl⟩)
        · exact Or.inl h
        · exact Or.inr ⟨d2, List.mem_cons_of_mem _ hd2, rfl⟩
      · rintro (h | ⟨d2, hd2, rfl⟩)
        · exact Or.inl h
        · rcases List.mem_cons.mp hd2 with rfl | h2
          · exact Or.inl hd
          · exact Or.inr ⟨d2, h2, rfl⟩
    · rw [if_neg hd, ih]
      constructor
      · rintro (h | ⟨d2, hd2, rfl⟩)
        · rcases List.mem_append.mp h with h2 | h2
          · exact Or.inl h2
          · exact Or.inr ⟨d, List.mem_cons_self d ds, (List.mem_singleton.mp h2).symm⟩
        · exact Or.inr ⟨d2, List.mem_cons_of_mem _ hd2, rfl⟩
      · rintro (h | ⟨d2, hd2, rfl⟩)
        · exact Or.inl (List.mem_append.mpr (Or.inl h))
        · rcases List.mem_cons.mp hd2 with rfl | h2
          · exact Or.inl (List.mem_append.mpr (Or.inr (List.mem_singleton.mpr rfl)))
          · exact Or.inr ⟨d2, h2, rfl⟩

theorem collectProviders_nodup : ∀ (ds : List ResourceDefinition) (acc : List String),
    acc.Nodup → (Tfimport.collectProviders ds acc).Nodup := by
  intro ds
  induction ds with
  | nil => intro acc h; simpa [Tfimport.collectProviders] using h
  | cons d ds ih =>
    intro acc h
    rw [Tfimport.collectProviders]
    by_cases hd : d.Provider ∈ acc
    · rw [if_pos hd]; exact ih acc h
    · rw [if_neg hd]
      exact ih _ (by simp [List.nodup_append, h, hd])

/-- C3 (counterexample): with the single remote definition
`\x7bType: app, Name: x, Provider: p\x7d` and an existing file already
declaring `resource app x`, the definition is filtered out but its
provider `p` is still returned — refuting that returned providers are
referenced by the surviving definitions. -/
theorem claim_C3_cex :
    ¬ (∀ p ∈ (Tfimport.filterExistingDefinitions "resource app x \x7b"
          [⟨"app", "x", "p", "id"⟩]).2,
        ∃ d ∈ (Tfimport.filterExistingDefinitions "resource app x \x7b"
          [⟨"app", "x", "p", "id"⟩]).1, d.Provider = p) := by
  decide

/-- C3 (amended): the returned provider list is the distinct set of
providers referenced by ALL incoming definitions (surviving or filtered
out alike) whose provider is not already declared in the scanned text. -/
theorem claim_C3 (text : String) (defs : List ResourceDefinition) :
    (Tfimport.filterExistingDefinitions text defs).2.Nodup
    ∧ ∀ p, p ∈ (Tfimport.filterExistingDefinitions text defs).2 ↔
        ((∃ d ∈ defs, d.Provider = p) ∧ Tfimport.providerCount text p = 0) := by
  constructor
  · exact List.Nodup.filter _ (collectProviders_nodup defs [] List.nodup_nil)
  · intro p
    show p ∈ (Tfimport.collectProviders defs []).filter
        (fun q => Tfimport.providerCount text q == 0) ↔ _
    rw [List.mem_filter, collectProviders_mem defs [] p]
    simp

/-- C2 (counterexample): a resource named `x0y` (a digit between
letters) written by the first run is not matched by the scanner's
resource regex `[a-zA-Z\_\-]*[0-9]*` on the second run, so the filter
returns it again instead of the empty list. -/
theorem claim_C2_cex :
    Tfimport.convertTFStateToHCL (fun _ v => v)
      ⟨[⟨"", "x0y", "onelogin_apps", "provider.onelogin", [⟨.obj []⟩]⟩]⟩ =
      .ok "provider onelogin \x7b\n\talias = \"onelogin\"\n\x7d\n\nresource onelogin_apps x0y \x7b\n\tprovider = onelogin\n\x7d\n\n"
    ∧ (Tfimport.filterExistingDefinitions
        "provider onelogin \x7b\n\talias = \"onelogin\"\n\x7d\n\nresource onelogin_apps x0y \x7b\n\tprovider = onelogin\n\x7d\n\n"
        [⟨"onelogin_apps", "x0y", "onelogin", "123"⟩]).1 =
      [⟨"onelogin_apps", "x0y", "onelogin", "123"⟩] := ⟨rfl, rfl⟩


/-! ## Scanner evaluation on the lines the converter writes back -/

theorem starGreedyCap_exact {α} (p : Char → Bool) :
    ∀ (l : List Char) (c : Char) (rest : List Char)
      (k : List Char → List Char → Option α) (r : α),
      (∀ x ∈ l, p x = true) → p c = false → k l (c :: rest) = some r →
      starGreedyCap p (l ++ c :: rest) k = some r := by
  intro l
  induction l with
  | nil =>
    intro c rest k r _ hc hk
    show starGreedyCap p (c :: rest) k = some r
    rw [starGreedyCap, if_neg (by simp [hc])]
    exact hk
  | cons a l ih =>
    intro c rest k r hl hc hk
    show starGreedyCap p (a :: (l ++ c :: rest)) k = some r
    rw [starGreedyCap, if_pos (hl a (List.mem_cons_self a l))]
    rw [ih c rest (fun cap rest2 => k (a :: cap) rest2) r
      (fun x hx => hl x (List.mem_cons_of_mem a hx)) hc hk]

theorem starGreedy_exact {α} (p : Char → Bool) :
    ∀ (l : List Char) (c : Char) (rest : List Char)
      (k : List Char → Option α) (r : α),
      (∀ x ∈ l, p x = true) → p c = false → k (c :: rest) = some r →
      starGreedy p (l ++ c :: rest) k = some r := by
  intro l
  induction l with
  | nil =>
    intro c rest k r _ hc hk
    show starGreedy p (c :: rest) k = some r
    rw [starGreedy, if_neg (by simp [hc])]
    exact hk
  | cons a l ih =>
    intro c rest k r hl hc hk
    show starGreedy p (a :: (l ++ c :: rest)) k = some r
    rw [starGreedy, if_pos (hl a (List.mem_cons_self a l))]
    rw [ih c rest k r (fun x hx => hl x (List.mem_cons_of_mem a hx)) hc hk]

theorem nameShape_digits : ∀ (l : List Char), nameShapeAux true l = true →
    ∀ c ∈ l, c.isDigit = true := by
  intro l
  induction l with
  | nil => intro _ c hc; exact absurd hc (List.not_mem_nil c)
  | cons a l ih =>
    intro h c hc
    rw [nameShapeAux] at h
    by_cases ha : a.isDigit = true
    · rw [if_pos ha] at h
      rcases List.mem_cons.mp hc with rfl | hc2
      · exact ha
      · exact ih h c hc2
    · rw [if_neg ha] at h
      exact absurd h (by simp)

/-- Splitting of a name of the accepted shape `[a-zA-Z\_\-]*[0-9]*` into
its letter part and its digit part; the first digit is witnessed to be
outside the letter class. -/
theorem nameShape_split : ∀ (l : List Char), nameShapeAux false l = true →
    ∃ a b, l = a ++ b ∧ (∀ c ∈ a, isNameChar c = true) ∧ (∀ c ∈ b, c.isDigit = true)
      ∧ (b = [] ∨ ∃ d b2, b = d :: b2 ∧ isNameChar d = false) := by
  intro l
  induction l with
  | nil =>
    intro _
    exact ⟨[], [], rfl, fun c hc => absurd hc (List.not_mem_nil c),
      fun c hc => absurd hc (List.not_mem_nil c), Or.inl rfl⟩
  | cons c l ih =>
    intro h
    rw [nameShapeAux] at h
    by_cases hn : isNameChar c = true
    · rw [if_pos hn] at h
      obtain ⟨a, b, hab, ha, hb, hhd⟩ := ih h
      refine ⟨c :: a, b, by rw [hab]; rfl, ?_, hb, hhd⟩
      intro x hx
      rcases List.mem_cons.mp hx with rfl | hx2
      · exact hn
      · exact ha x hx2
    · rw [if_neg hn] at h
      by_cases hd : c.isDigit = true
      · rw [if_pos hd] at h
        refine ⟨[], c :: l, rfl, fun x hx => absurd hx (List.not_mem_nil x), ?_, ?_⟩
        · intro x hx
          rcases List.mem_cons.mp hx with rfl | hx2
          · exact hd
          · exact nameShape_digits l h x hx2
        · exact Or.inr ⟨c, l, rfl, by simpa using hn⟩
      · rw [if_neg hd] at h
        exact absurd h (by simp)

/-- The resource regex matches the canonical line the converter writes,
capturing exactly the type and the name. -/
theorem resourceAt_canonical (T a b : List Char)
    (hT : ∀ c ∈ T, isNameChar c = true)
    (ha : ∀ c ∈ a, isNameChar c = true)
    (hb : ∀ c ∈ b, Char.isDigit c = true)
    (hhd : b = [] ∨ ∃ d b2, b = d :: b2 ∧ isNameChar d = false) :
    Tfimport.resourceAt (resourceLit ++ ' ' :: (T ++ ' ' :: (a ++ (b ++ [' ', '\x7b'])))) =
      some ((⟨T⟩ : String), (⟨a ++ b⟩ : String)) := by
  show starGreedyCap isNameChar (T ++ ' ' :: (a ++ (b ++ [' ', '\x7b'])))
    (fun g2 r5 =>
      matchSpace1 r5 fun r6 =>
      starGreedyCap isNameChar r6 fun g3a r7 =>
      starGreedyCap Char.isDigit r7 fun g3b r8 =>
      matchOptSpace r8 fun r9 =>
      match r9 with
      | c :: _ => if c = '\x7b' then some ((⟨g2⟩ : String), (⟨g3a ++ g3b⟩ : String)) else none
      | [] => none) = _
  refine starGreedyCap_exact isNameChar T ' ' _ _ _ hT (by decide) ?_
  show starGreedyCap isNameChar (a ++ (b ++ [' ', '\x7b'])) _ = _
  rcases hhd with rfl | ⟨d, b2, rfl, hd⟩
  · show starGreedyCap isNameChar (a ++ [' ', '\x7b']) _ = _
    refine starGreedyCap_exact isNameChar a ' ' ['\x7b'] _ _ ha (by decide) ?_
    rfl
  · show starGreedyCap isNameChar (a ++ (d :: (b2 ++ [' ', '\x7b']))) _ = _
    refine starGreedyCap_exact isNameChar a d (b2 ++ [' ', '\x7b']) _ _ ha hd ?_
    show starGreedyCap Char.isDigit ((d :: b2) ++ [' ', '\x7b']) _ = _
    have hdig : ∀ c ∈ d :: b2, c.isDigit = true := hb
    refine starGreedyCap_exact Char.isDigit (d :: b2) ' ' ['\x7b'] _ _ hdig (by decide) ?_
    rfl


/-- String-level form: `resource <T> <N> \x7b` scans back to the key
`<T>.<N>` when the type and name have the shapes the regex can match. -/
theorem resourceKeyOfLine_canonical (T N : String) (hT : typeOk T = true)
    (hN : nameOk N = true) :
    Tfimport.resourceKeyOfLine ("resource " ++ T ++ " " ++ N ++ " \x7b") =
      some (T ++ "." ++ N) := by
  obtain ⟨lT⟩ := T
  obtain ⟨lN⟩ := N
  obtain ⟨a, b, hab, ha, hb, hhd⟩ := nameShape_split lN hN
  have hlist : ("resource " ++ (⟨lT⟩ : String) ++ " " ++ (⟨lN⟩ : String) ++ " \x7b").toList
      = resourceLit ++ ' ' :: (lT ++ ' ' :: (a ++ (b ++ [' ', '\x7b']))) := by
    show "resource ".data ++ lT ++ " ".data ++ lN ++ " \x7b".data = _
    rw [hab]
    simp [List.append_assoc]
    rfl
  have hT2 : ∀ c ∈ lT, isNameChar c = true := by
    intro c hc
    exact List.all_eq_true.mp hT c hc
  rw [Tfimport.resourceKeyOfLine, hlist]
  show Option.map _ (Tfimport.resourceFind
    ('r' :: ('e' :: 's' :: 'o' :: 'u' :: 'r' :: 'c' :: 'e' :: ' '
      :: (lT ++ ' ' :: (a ++ (b ++ [' ', '\x7b'])))))) = _
  rw [Tfimport.resourceFind]
  have hres := resourceAt_canonical lT a b hT2 ha hb hhd
  rw [show (resourceLit ++ ' ' :: (lT ++ ' ' :: (a ++ (b ++ [' ', '\x7b']))))
      = ('r' :: ('e' :: 's' :: 'o' :: 'u' :: 'r' :: 'c' :: 'e' :: ' '
        :: (lT ++ ' ' :: (a ++ (b ++ [' ', '\x7b']))))) from rfl] at hres
  rw [hres, hab]
  rfl

theorem splitLinesAux_no_nl : ∀ (l : List Char) (post acc : List Char),
    (∀ c ∈ l, c ≠ '\n') →
    splitLinesAux (l ++ '\n' :: post) acc =
      dropCRend (acc.reverse ++ l) :: splitLinesAux post [] := by
  intro l
  induction l with
  | nil =>
    intro post acc _
    show splitLinesAux ('\n' :: post) acc = _
    rw [splitLinesAux, if_pos rfl]
    simp
  | cons c l ih =>
    intro post acc hl
    show splitLinesAux (c :: (l ++ '\n' :: post)) acc = _
    rw [splitLinesAux, if_neg (hl c (List.mem_cons_self c l))]
    rw [ih post (c :: acc) (fun x hx => hl x (List.mem_cons_of_mem c hx))]
    simp

theorem splitLinesAux_pre : ∀ (pre tail acc : List Char),
    pre.getLast? = some '\n' →
    ∃ front, splitLinesAux (pre ++ tail) acc = front ++ splitLinesAux tail [] := by
  intro pre
  induction pre with
  | nil => intro tail acc h; exact absurd h (by simp)
  | cons c pre ih =>
    intro tail acc h
    cases pre with
    | nil =>
      have hc : c = '\n' := by simpa using h
      subst hc
      refine ⟨[dropCRend acc.reverse], ?_⟩
      show splitLinesAux ('\n' :: tail) acc = _
      rw [splitLinesAux, if_pos rfl]
      rfl
    | cons c2 pre2 =>
      have h2 : (c2 :: pre2).getLast? = some '\n' := by
        rwa [List.getLast?_cons_cons] at h
      show ∃ front, splitLinesAux (c :: ((c2 :: pre2) ++ tail)) acc = front ++ _
      rw [splitLinesAux]
      by_cases hc : c = '\n'
      · rw [if_pos hc]
        obtain ⟨front, hf⟩ := ih tail [] h2
        exact ⟨dropCRend acc.reverse :: front, by rw [hf]; rfl⟩
      · rw [if_neg hc]
        exact ih tail (c :: acc) h2

/-- A `\r`-free token is not altered by the line scanner's
carriage-return stripping. -/
theorem dropCRend_eq (l : List Char) (h : l.getLast? ≠ some '\r') :
    dropCRend l = l := by
  rw [dropCRend, if_neg h]

/-- Any full newline-terminated line of the written text, preceded by
nothing or by newline-terminated text, is a token of the scanner. -/
theorem mem_goLines (out pre line post : String)
    (hout : out = pre ++ (line ++ "\n") ++ post)
    (hpre : endsNL pre)
    (hline : ∀ c ∈ line.toList, c ≠ '\n')
    (hcr : line.toList.getLast? ≠ some '\r') :
    line ∈ goLines out := by
  obtain ⟨lpre⟩ := pre
  obtain ⟨lline⟩ := line
  obtain ⟨lpost⟩ := post
  have hdata : out.toList = lpre ++ (lline ++ '\n' :: lpost) := by
    rw [hout]
    show lpre ++ (lline ++ "\n".data) ++ lpost = _
    simp [List.append_assoc]
  rw [goLines, hdata]
  rcases hpre with hpre | ⟨t, ht⟩
  · have hnil : lpre = [] := congrArg String.data hpre
    subst hnil
    rw [List.nil_append, splitLinesAux_no_nl lline lpost [] hline]
    rw [List.reverse_nil, List.nil_append, dropCRend_eq lline hcr]
    exact List.mem_map.mpr ⟨lline, List.mem_cons_self _ _, rfl⟩
  · have hlast : lpre.getLast? = some '\n' := by
      have : lpre = t.data ++ ['\n'] := congrArg String.data ht
      rw [this, List.getLast?_concat]
    obtain ⟨front, hf⟩ := splitLinesAux_pre lpre (lline ++ '\n' :: lpost) [] hlast
    rw [hf, splitLinesAux_no_nl lline lpost [] hline]
    rw [List.reverse_nil, List.nil_append, dropCRend_eq lline hcr]
    exact List.mem_map.mpr ⟨lline,
      List.mem_append.mpr (Or.inr (List.mem_cons_self _ _)), rfl⟩


/-! ## Structure of the written text: every resource block header is a
full line -/

theorem endsNL_append (a b : String) (ha : endsNL a) (hb : endsNL b) : endsNL (a ++ b) := by
  rcases hb with rfl | ⟨t, rfl⟩
  · rw [String.append_empty]; exact ha
  · exact Or.inr ⟨a ++ t, (String.append_assoc a t "\n").symm⟩

theorem endsNL_append_lit (a s t : String) (h : s = t ++ "\n") : endsNL (a ++ s) :=
  Or.inr ⟨a ++ t, by rw [h]; exact (String.append_assoc a t "\n").symm⟩

theorem endsNL_providerBlock (pd : String) : endsNL (providerBlock pd) :=
  endsNL_append_lit _ _ "\"\n\x7d\n" rfl

theorem Tfimport.instancesText_endsNL (sculpt : String → Value → Value)
    (pd typ nm : String) :
    ∀ (insts : List ResourceInstance) (out : String),
      Tfimport.instancesText sculpt pd typ nm insts = .ok out → endsNL out := by
  intro insts
  induction insts with
  | nil =>
    intro out h
    exact Or.inl (Except.ok.inj h).symm
  | cons inst rest ih =>
    intro out h
    rw [Tfimport.instancesText] at h
    cases e1 : Tfimport.convertToHCLLine (sculpt typ inst.Data) 1 with
    | error msg => rw [e1] at h; exact Except.noConfusion h
    | ok body =>
      rw [e1] at h
      cases e2 : Tfimport.instancesText sculpt pd typ nm rest with
      | error msg => rw [e2] at h; exact Except.noConfusion h
      | ok restOut =>
        rw [e2] at h
        rw [← Except.ok.inj h]
        exact endsNL_append _ _ (endsNL_append_lit _ _ "\x7d\n" rfl) (ih restOut e2)

theorem Tfimport.instancesText_header (sculpt : String → Value → Value)
    (pd typ nm : String) (inst : ResourceInstance) (rest : List ResourceInstance)
    (out : String)
    (h : Tfimport.instancesText sculpt pd typ nm (inst :: rest) = .ok out) :
    ∃ tail, out = (("resource " ++ typ ++ " " ++ nm ++ " \x7b") ++ "\n") ++ tail := by
  rw [Tfimport.instancesText] at h
  cases e1 : Tfimport.convertToHCLLine (sculpt typ inst.Data) 1 with
  | error msg => rw [e1] at h; exact Except.noConfusion h
  | ok body =>
    rw [e1] at h
    cases e2 : Tfimport.instancesText sculpt pd typ nm rest with
    | error msg => rw [e2] at h; exact Except.noConfusion h
    | ok restOut =>
      rw [e2] at h
      refine ⟨"\tprovider = " ++ pd ++ "\n" ++ body ++ "\x7d\n\n" ++ restOut, ?_⟩
      rw [← Except.ok.inj h]
      have hsplit : (" \x7b\n" : String) = " \x7b" ++ "\n" := rfl
      rw [hsplit]
      simp only [String.append_assoc]

/-- In the text written back by the `tfimport` converter, every resource
that has at least one instance contributes a full line
`resource <type> <name> \x7b`, preceded by newline-terminated text. -/
theorem Tfimport.resourcesText_line (sculpt : String → Value → Value) :
    ∀ (rs : List StateResource) (known : List String) (out : String),
      Tfimport.resourcesText sculpt rs known = .ok out →
      (∀ r ∈ rs, endsNL r.Content) →
      endsNL out ∧
      ∀ r ∈ rs, ∀ inst irest, r.Instances = inst :: irest →
        ∃ pre post, endsNL pre ∧
          out = pre ++ (("resource " ++ r.«Type» ++ " " ++ r.Name ++ " \x7b") ++ "\n") ++ post := by
  intro rs
  induction rs with
  | nil =>
    intro known out h _
    refine ⟨Or.inl (Except.ok.inj h).symm, ?_⟩
    intro r hr
    exact absurd hr (List.not_mem_nil r)
  | cons r0 rs ih =>
    intro known out h hcontent
    rw [Tfimport.resourcesText] at h
    cases e1 : Tfimport.instancesText sculpt (Tfimport.providerDef r0) r0.«Type» r0.Name
        r0.Instances with
    | error msg => rw [e1] at h; exact Except.noConfusion h
    | ok b0 =>
      rw [e1] at h
      cases e2 : Tfimport.resourcesText sculpt rs
          (if known.contains (Tfimport.providerDef r0) then known
           else known ++ [Tfimport.providerDef r0]) with
      | error msg => rw [e2] at h; exact Except.noConfusion h
      | ok rest =>
        rw [e2] at h
        have hout := Except.ok.inj h
        have hprovNL : endsNL (if known.contains (Tfimport.providerDef r0) then ""
            else providerBlock (Tfimport.providerDef r0)) := by
          by_cases hk : known.contains (Tfimport.providerDef r0)
          · rw [if_pos hk]; exact Or.inl rfl
          · rw [if_neg hk]; exact endsNL_providerBlock _
        have hb0NL := Tfimport.instancesText_endsNL sculpt (Tfimport.providerDef r0)
          r0.«Type» r0.Name r0.Instances b0 e1
        have hc0NL := hcontent r0 (List.mem_cons_self r0 rs)
        obtain ⟨hrestNL, hrest⟩ := ih _ rest e2
          (fun r hr => hcontent r (List.mem_cons_of_mem r0 hr))
        constructor
        · rw [← hout]
          exact endsNL_append _ _
            (endsNL_append _ _ (endsNL_append _ _ hprovNL hb0NL) hc0NL) hrestNL
        · intro r hr inst irest hins
          rcases List.mem_cons.mp hr with rfl | hr2
          · rw [hins] at e1
            obtain ⟨tail, htail⟩ := Tfimport.instancesText_header sculpt
              (Tfimport.providerDef r) r.«Type» r.Name inst irest b0 e1
            refine ⟨(if known.contains (Tfimport.providerDef r) then ""
              else providerBlock (Tfimport.providerDef r)),
              tail ++ r.Content ++ rest, hprovNL, ?_⟩
            rw [← hout, htail]
            simp [String.append_assoc]
          · obtain ⟨pre, post, hpreNL, hrd⟩ := hrest r hr2 inst irest hins
            refine ⟨(if known.contains (Tfimport.providerDef r0) then ""
              else providerBlock (Tfimport.providerDef r0)) ++ b0 ++ r0.Content ++ pre,
              post, ?_, ?_⟩
            · exact endsNL_append _ _
                (endsNL_append _ _ (endsNL_append _ _ hprovNL hb0NL) hc0NL) hpreNL
            · rw [← hout, hrd]
              simp [String.append_assoc]


theorem nameShape_chars : ∀ (l : List Char) (st : Bool), nameShapeAux st l = true →
    ∀ c ∈ l, isNameChar c = true ∨ c.isDigit = true := by
  intro l
  induction l with
  | nil => intro st _ c hc; exact absurd hc (List.not_mem_nil c)
  | cons a l ih =>
    intro st h c hc
    cases st with
    | false =>
      rw [nameShapeAux] at h
      by_cases hn : isNameChar a = true
      · rw [if_pos hn] at h
        rcases List.mem_cons.mp hc with rfl | hc2
        · exact Or.inl hn
        · exact ih false h c hc2
      · rw [if_neg hn] at h
        by_cases hd : a.isDigit = true
        · rw [if_pos hd] at h
          rcases List.mem_cons.mp hc with rfl | hc2
          · exact Or.inr hd
          · exact ih true h c hc2
        · rw [if_neg hd] at h
          exact absurd h (by simp)
    | true =>
      rw [nameShapeAux] at h
      by_cases hd : a.isDigit = true
      · rw [if_pos hd] at h
        rcases List.mem_cons.mp hc with rfl | hc2
        · exact Or.inr hd
        · exact ih true h c hc2
      · rw [if_neg hd] at h
        exact absurd h (by simp)

theorem nameChar_ne_nl (c : Char) (h : isNameChar c = true) : c ≠ '\n' := by
  intro he; subst he; exact absurd h (by decide)

theorem digit_ne_nl (c : Char) (h : c.isDigit = true) : c ≠ '\n' := by
  intro he; subst he; exact absurd h (by decide)

/-- The block-header line the converter writes contains no newline and
does not end in a carriage return. -/
theorem lineChars (T N : String) (hT : typeOk T = true) (hN : nameOk N = true) :
    (∀ c ∈ ("resource " ++ T ++ " " ++ N ++ " \x7b").toList, c ≠ '\n')
    ∧ ("resource " ++ T ++ " " ++ N ++ " \x7b").toList.getLast? ≠ some '\r' := by
  obtain ⟨lT⟩ := T
  obtain ⟨lN⟩ := N
  have hTc : ∀ c ∈ lT, isNameChar c = true := fun c hc => List.all_eq_true.mp hT c hc
  have hNc : ∀ c ∈ lN, isNameChar c = true ∨ c.isDigit = true :=
    fun c hc => nameShape_chars lN false hN c hc
  constructor
  · intro c hc
    have hc2 : c ∈ ((("resource ".data ++ lT) ++ " ".data) ++ lN) ++ " \x7b".data := hc
    have hres : ∀ x ∈ "resource ".data, x ≠ '\n' := by decide
    have hsp : ∀ x ∈ " ".data, x ≠ '\n' := by decide
    have hbr : ∀ x ∈ " \x7b".data, x ≠ '\n' := by decide
    rcases List.mem_append.mp hc2 with h4 | h4
    · rcases List.mem_append.mp h4 with h3 | h3
      · rcases List.mem_append.mp h3 with h2 | h2
        · rcases List.mem_append.mp h2 with h1 | h1
          · exact hres c h1
          · exact nameChar_ne_nl c (hTc c h1)
        · exact hsp c h2
      · rcases hNc c h3 with h | h
        · exact nameChar_ne_nl c h
        · exact digit_ne_nl c h
    · exact hbr c h4
  · show (((("resource ".data ++ lT) ++ " ".data) ++ lN) ++ " \x7b".data).getLast? ≠ some '\r'
    rw [show (" \x7b".data : List Char) = [' '] ++ ['\x7b'] from rfl, ← List.append_assoc,
      List.getLast?_concat]
    decide

/-- C2 (amended): if every remote definition re-offered on the second run
corresponds to a state resource that was written on the first run (at
least one instance) whose type matches `[a-zA-Z\_\-]*` and whose name
matches `[a-zA-Z\_\-]*[0-9]*`, and trailing contents are newline-clean,
then the scanner classifies every such `Type.Name` as already declared
and the filter returns no new resource definitions. -/
theorem claim_C2 (sculpt : String → Value → Value) (state : State) (out : String)
    (defs : List ResourceDefinition)
    (hok : Tfimport.convertTFStateToHCL sculpt state = .ok out)
    (hcontent : ∀ r ∈ state.Resources, endsNL r.Content)
    (hdefs : ∀ d ∈ defs, ∃ r ∈ state.Resources,
      r.«Type» = d.«Type» ∧ r.Name = d.Name ∧ r.Instances ≠ []
      ∧ typeOk r.«Type» = true ∧ nameOk r.Name = true) :
    (Tfimport.filterExistingDefinitions out defs).1 = [] := by
  show (defs.filter fun d =>
    Tfimport.resourceCount out (d.«Type» ++ "." ++ d.Name) == 0) = []
  rw [List.filter_eq_nil_iff]
  intro d hd
  obtain ⟨r, hr, hTy, hNm, hInst, hTok, hNok⟩ := hdefs d hd
  obtain ⟨hNL, hline⟩ := Tfimport.resourcesText_line sculpt state.Resources [] out hok hcontent
  cases hInstE : r.Instances with
  | nil => exact absurd hInstE hInst
  | cons inst irest =>
    obtain ⟨pre, post, hpreNL, hdec⟩ := hline r hr inst irest hInstE
    have hlc := lineChars r.«Type» r.Name hTok hNok
    have hmem : ("resource " ++ r.«Type» ++ " " ++ r.Name ++ " \x7b") ∈ goLines out :=
      mem_goLines out pre _ post hdec hpreNL hlc.1 hlc.2
    have hkey := resourceKeyOfLine_canonical r.«Type» r.Name hTok hNok
    intro hcount
    have h0 : Tfimport.resourceCount out (d.«Type» ++ "." ++ d.Name) = 0 := by
      simpa using hcount
    rw [← hTy, ← hNm, Tfimport.resourceCount] at h0
    have hfil : ("resource " ++ r.«Type» ++ " " ++ r.Name ++ " \x7b") ∈
        (goLines out).filter
          (fun l => Tfimport.resourceKeyOfLine l = some (r.«Type» ++ "." ++ r.Name)) :=
      List.mem_filter.mpr ⟨hmem, by simp [hkey]⟩
    rw [List.length_eq_zero.mp h0] at hfil
    exact absurd hfil (List.not_mem_nil _)

/-- C2 witness: a one-resource state written by the first run; the second
run's identical remote definition is filtered to nothing. -/
theorem claim_C2_witness :
    (Tfimport.filterExistingDefinitions
      "provider onelogin \x7b\n\talias = \"onelogin\"\n\x7d\n\nresource onelogin_apps x \x7b\n\tprovider = onelogin\n\x7d\n\n"
      [⟨"onelogin_apps", "x", "onelogin", "1"⟩]).1 = [] := by
  refine claim_C2 (fun _ v => v)
    ⟨[⟨"", "x", "onelogin_apps", "provider.onelogin", [⟨.obj []⟩]⟩]⟩ _
    [⟨"onelogin_apps", "x", "onelogin", "1"⟩] rfl ?_ ?_
  · intro r hr
    rw [List.mem_singleton.mp hr]
    exact Or.inl rfl
  · intro d hd
    refine ⟨⟨"", "x", "onelogin_apps", "provider.onelogin", [⟨.obj []⟩]⟩,
      List.mem_singleton.mpr rfl, ?_, ?_, ?_, rfl, rfl⟩
    · rw [List.mem_singleton.mp hd]
    · rw [List.mem_singleton.mp hd]
    · intro h; exact List.noConfusion h


/-! ## Claim C1: the disambiguation loop -/

/-- Numeric value of a digit string (decoding of `decDigits`). -/
def digitsVal (l : List Char) : Nat :=
  l.foldl (fun acc c => acc * 10 + (c.toNat - 48)) 0

theorem digitChar_isDigit : ∀ m, m < 10 → (digitChar m).isDigit = true := by decide

theorem digitChar_val : ∀ m, m < 10 → (digitChar m).toNat - 48 = m := by decide

theorem decDigitsAux_digits : ∀ (f n : Nat), n < f →
    ∀ c ∈ decDigitsAux f n, c.isDigit = true := by
  intro f
  induction f with
  | zero => intro n h; omega
  | succ f ih =>
    intro n h c hc
    rw [decDigitsAux] at hc
    by_cases h10 : n < 10
    · rw [if_pos h10] at hc
      rw [List.mem_singleton.mp hc]
      exact digitChar_isDigit n h10
    · rw [if_neg h10] at hc
      rcases List.mem_append.mp hc with h2 | h2
      · exact ih (n / 10) (by omega) c h2
      · rw [List.mem_singleton.mp h2]
        exact digitChar_isDigit (n % 10) (Nat.mod_lt n (by omega))

theorem digitsVal_concat (l : List Char) (c : Char) :
    digitsVal (l ++ [c]) = digitsVal l * 10 + (c.toNat - 48) := by
  rw [digitsVal, digitsVal, List.foldl_append]
  rfl

theorem decDigitsAux_val : ∀ (f n : Nat), n < f → digitsVal (decDigitsAux f n) = n := by
  intro f
  induction f with
  | zero => intro n h; omega
  | succ f ih =>
    intro n h
    rw [decDigitsAux]
    by_cases h10 : n < 10
    · rw [if_pos h10]
      show 0 * 10 + ((digitChar n).toNat - 48) = n
      rw [digitChar_val n h10]
      omega
    · rw [if_neg h10, digitsVal_concat, ih (n / 10) (by omega),
        digitChar_val (n % 10) (Nat.mod_lt n (by omega))]
      omega

theorem decDigits_digits (n : Nat) : ∀ c ∈ decDigits n, c.isDigit = true :=
  decDigitsAux_digits (n + 1) n (Nat.lt_succ_self n)

theorem decDigits_inj (m n : Nat) (h : decDigits m = decDigits n) : m = n := by
  have hm := decDigitsAux_val (m + 1) m (Nat.lt_succ_self m)
  have hn := decDigitsAux_val (n + 1) n (Nat.lt_succ_self n)
  rw [← hm, ← hn]
  show digitsVal (decDigits m) = digitsVal (decDigits n)
  rw [h]

theorem takeWhile_digits_stop : ∀ (d : List Char) (y : Char) (z : List Char),
    (∀ c ∈ d, Char.isDigit c = true) → Char.isDigit y = false →
    (d ++ y :: z).takeWhile Char.isDigit = d := by
  intro d
  induction d with
  | nil =>
    intro y z _ hy
    show (y :: z).takeWhile Char.isDigit = []
    rw [List.takeWhile_cons, hy]
    rfl
  | cons a d ih =>
    intro y z hd hy
    show ((a :: (d ++ y :: z)).takeWhile Char.isDigit) = a :: d
    rw [List.takeWhile_cons, hd a (List.mem_cons_self a d),
      ih y z (fun c hc => hd c (List.mem_cons_of_mem a hc)) hy]
    rfl

theorem digitSuffix_spec (x d : List Char) (hd : ∀ c ∈ d, Char.isDigit c = true) :
    digitSuffix (x ++ '_' :: d) = d := by
  rw [digitSuffix, List.reverse_append, List.reverse_cons, List.append_assoc,
    List.singleton_append,
    takeWhile_digits_stop d.reverse '_' x.reverse
      (fun c hc => hd c (List.mem_reverse.mp hc)) (by decide),
    List.reverse_reverse]

/-- Two disambiguated identities with the same original name but distinct
counters are distinct strings, whatever the types are: the counter is the
maximal digit suffix of the identity. -/
theorem mkName_inj (T1 T2 a : String) (k1 k2 : Nat) (h : k1 ≠ k2) :
    T1 ++ "." ++ ("_" ++ a ++ "_" ++ formatInt k1) ≠
      T2 ++ "." ++ ("_" ++ a ++ "_" ++ formatInt k2) := by
  intro he
  have hdata : ∀ (T : String) (k : Nat), (T ++ "." ++ ("_" ++ a ++ "_" ++ formatInt k)).data
      = (T.data ++ '.' :: '_' :: a.data) ++ '_' :: decDigits k := by
    intro T k
    show ((T.data ++ ".".data) ++ ((("_".data ++ a.data) ++ "_".data) ++ decDigits k)) = _
    simp [List.append_assoc]
  have he2 := congrArg String.data he
  rw [hdata T1 k1, hdata T2 k2] at he2
  have hsuf := congrArg digitSuffix he2
  rw [digitSuffix_spec _ _ (decDigits_digits k1), digitSuffix_spec _ _ (decDigits_digits k2)]
    at hsuf
  exact h (decDigits_inj k1 k2 hsuf)


theorem countName_append (a : String) : ∀ (s t : List ResourceDefinition),
    countName a (s ++ t) = countName a s + countName a t := by
  intro s t
  induction s with
  | nil => simp [countName]
  | cons d s ih =>
    show countName a (d :: (s ++ t)) = _
    rw [countName, ih, countName]
    omega

theorem countName_replicate (a : String) (rd : ResourceDefinition) : ∀ (c : Nat),
    countName a (List.replicate c rd) = if rd.Name = a then c else 0 := by
  intro c
  induction c with
  | zero => simp [countName]
  | succ c ih =>
    rw [List.replicate_succ, countName, ih]
    by_cases h : rd.Name = a
    · rw [if_pos h, if_pos h, if_pos h]; omega
    · rw [if_neg h, if_neg h, if_neg h]

theorem countName_pos_of_mem (rd : ResourceDefinition) : ∀ (s : List ResourceDefinition),
    rd ∈ s → 1 ≤ countName rd.Name s := by
  intro s
  induction s with
  | nil => intro h; exact absurd h (List.not_mem_nil rd)
  | cons d s ih =>
    intro h
    rw [countName]
    rcases List.mem_cons.mp h with rfl | h2
    · rw [if_pos rfl]; omega
    · have := ih h2; omega

/-- Closed form of the inner scan: the counter advances by the number of
matches, the final `resourceName` carries the last counter value, and one
copy of the scanned definition is appended per match. -/
theorem Cmd.innerLoop_spec (rd : ResourceDefinition) :
    ∀ (s : List ResourceDefinition) (n : Nat) (rn : String),
      Cmd.innerLoop rd s n rn =
        (n + countName rd.Name s,
         (if countName rd.Name s = 0 then rn
          else rd.«Type» ++ "." ++ ("_" ++ rd.Name ++ "_"
            ++ formatInt (n + countName rd.Name s - 1))),
         List.replicate (countName rd.Name s) rd) := by
  intro s
  induction s with
  | nil => intro n rn; simp [Cmd.innerLoop, countName, List.replicate]
  | cons v vs ih =>
    intro n rn
    rw [Cmd.innerLoop]
    by_cases hv : v.Name = rd.Name
    · rw [if_pos hv, ih]
      have hcnt : countName rd.Name (v :: vs) = 1 + countName rd.Name vs := by
        rw [countName, if_pos hv]
      rw [hcnt]
      have hne : ¬ (1 + countName rd.Name vs = 0) := by omega
      rw [if_neg hne]
      by_cases hc : countName rd.Name vs = 0
      · rw [hc, if_pos rfl]
        show (n + 1, _, rd :: List.replicate 0 rd) = (n + (1 + 0), _, List.replicate (1 + 0) rd)
        rw [hv]
        rfl
      · rw [if_neg hc]
        have h1 : n + 1 + countName rd.Name vs - 1 = n + (1 + countName rd.Name vs) - 1 := by
          omega
        have h2 : n + 1 + countName rd.Name vs = n + (1 + countName rd.Name vs) := by omega
        rw [h1, h2]
        show (_, _, rd :: List.replicate (countName rd.Name vs) rd) =
          (_, _, List.replicate (1 + countName rd.Name vs) rd)
        rw [show 1 + countName rd.Name vs = countName rd.Name vs + 1 from by omega,
          List.replicate_succ]
    · rw [if_neg hv, ih]
      have hcnt : countName rd.Name (v :: vs) = countName rd.Name vs := by
        rw [countName, if_neg hv]; omega
      rw [hcnt]


theorem Cmd.disambiguateAux_cons (rd : ResourceDefinition) (rds s : List ResourceDefinition) :
    Cmd.disambiguateAux (rd :: rds) s =
      (if countName rd.Name s = 0 then rd.«Type» ++ "." ++ rd.Name
       else rd.«Type» ++ "." ++ ("_" ++ rd.Name ++ "_" ++ formatInt (countName rd.Name s - 1)))
      :: Cmd.disambiguateAux rds (s ++ List.replicate (countName rd.Name s) rd) := by
  rw [Cmd.disambiguateAux, Cmd.innerLoop_spec]
  rw [show (0 : Nat) + countName rd.Name s = countName rd.Name s from by omega]

theorem Cmd.disambiguateAux_length : ∀ (rds s : List ResourceDefinition),
    (Cmd.disambiguateAux rds s).length = rds.length := by
  intro rds
  induction rds with
  | nil => intro s; rfl
  | cons rd rds ih =>
    intro s
    rw [Cmd.disambiguateAux_cons, List.length_cons, ih, List.length_cons]

/-- Every emitted identity has the `_<name>_<counter>` form, where the
counter is at least the current occurrence count of the name minus one. -/
theorem Cmd.names_bound : ∀ (rds s : List ResourceDefinition),
    (∀ rd ∈ rds, 1 ≤ countName rd.Name s) →
    ∀ p ∈ rds.zip (Cmd.disambiguateAux rds s),
      ∃ c, 1 ≤ c ∧ countName p.1.Name s ≤ c ∧
        p.2 = p.1.«Type» ++ "." ++ ("_" ++ p.1.Name ++ "_" ++ formatInt (c - 1)) := by
  intro rds
  induction rds with
  | nil => intro s _ p hp; exact absurd hp (List.not_mem_nil p)
  | cons rd rds ih =>
    intro s hpre p hp
    rw [Cmd.disambiguateAux_cons] at hp
    have hc0 : 1 ≤ countName rd.Name s := hpre rd (List.mem_cons_self rd rds)
    rw [if_neg (by omega)] at hp
    rcases List.mem_cons.mp hp with rfl | hp2
    · exact ⟨countName rd.Name s, hc0, Nat.le_refl _, rfl⟩
    · have hgrow : ∀ a, countName a s ≤
          countName a (s ++ List.replicate (countName rd.Name s) rd) := by
        intro a
        rw [countName_append]
        omega
      obtain ⟨c, hc1, hc2, hform⟩ := ih (s ++ List.replicate (countName rd.Name s) rd)
        (fun rd2 h2 => Nat.le_trans (hpre rd2 (List.mem_cons_of_mem rd h2)) (hgrow rd2.Name))
        p hp2
      exact ⟨c, hc1, Nat.le_trans (hgrow p.1.Name) hc2, hform⟩

/-- Identities emitted for definitions sharing a `Name` are pairwise
distinct: the occurrence count of that name doubles when one of them is
processed and never decreases afterwards, so the counters are strictly
increasing, and the counter is recoverable from the identity as its
maximal digit suffix. -/
theorem Cmd.sameName_pairwise : ∀ (rds s : List ResourceDefinition),
    (∀ rd ∈ rds, 1 ≤ countName rd.Name s) →
    List.Pairwise (fun p q : ResourceDefinition × String => p.1.Name = q.1.Name → p.2 ≠ q.2)
      (rds.zip (Cmd.disambiguateAux rds s)) := by
  intro rds
  induction rds with
  | nil => intro s _; exact List.Pairwise.nil
  | cons rd rds ih =>
    intro s hpre
    have hc0 : 1 ≤ countName rd.Name s := hpre rd (List.mem_cons_self rd rds)
    rw [Cmd.disambiguateAux_cons, if_neg (by omega)]
    have hpre2 : ∀ rd2 ∈ rds, 1 ≤ countName rd2.Name
        (s ++ List.replicate (countName rd.Name s) rd) := by
      intro rd2 h2
      rw [countName_append]
      have := hpre rd2 (List.mem_cons_of_mem rd h2)
      omega
    refine List.Pairwise.cons ?_ (ih _ hpre2)
    intro q hq hname
    have hname2 : rd.Name = q.1.Name := hname
    obtain ⟨c, hc1, hc2, hform⟩ := Cmd.names_bound rds
      (s ++ List.replicate (countName rd.Name s) rd) hpre2 q hq
    rw [countName_append, countName_replicate, if_pos hname2, ← hname2] at hc2
    show rd.«Type» ++ "." ++ ("_" ++ rd.Name ++ "_" ++ formatInt (countName rd.Name s - 1))
      ≠ q.2
    rw [hform, ← hname2]
    exact mkName_inj rd.«Type» q.1.«Type» rd.Name (countName rd.Name s - 1) (c - 1)
      (by omega)

/-- C1 (amended): exactly one identity is produced per input definition;
definitions sharing the same `Name` always receive pairwise-distinct
identities; the batch `[\x7bapp, x\x7d, \x7bapp, x\x7d]` yields
`app._x_1` and `app._x_3` (every definition is renamed, including unique
ones, because each matches itself in the scan). -/
theorem claim_C1 (defs : List ResourceDefinition) :
    (Cmd.disambiguatedNames defs).length = defs.length
    ∧ List.Pairwise (fun p q : ResourceDefinition × String => p.1.Name = q.1.Name → p.2 ≠ q.2)
        (defs.zip (Cmd.disambiguatedNames defs))
    ∧ Cmd.disambiguatedNames [⟨"app", "x", "onelogin", "1"⟩, ⟨"app", "x", "onelogin", "2"⟩] =
        ["app._x_1", "app._x_3"] :=
  ⟨Cmd.disambiguateAux_length defs defs,
   Cmd.sameName_pairwise defs defs (fun rd h => countName_pos_of_mem rd defs h),
   rfl⟩

/-- C1 (counterexample): the collision batch does not yield `x` and
`_x_0` — both definitions are renamed, to `_x_1` and `_x_3` — and for
dot-containing names the full `Type.Name` identities of two
different-named definitions can collide outright. -/
theorem claim_C1_cex :
    Cmd.disambiguatedNames [⟨"app", "x", "onelogin", "1"⟩, ⟨"app", "x", "onelogin", "2"⟩] ≠
      ["app.x", "app._x_0"]
    ∧ Cmd.disambiguatedNames [⟨"a", "b._c", "p", "1"⟩, ⟨"a._b", "c", "p", "2"⟩] =
      ["a._b._c_0", "a._b._c_0"]
    ∧ ¬ (Cmd.disambiguatedNames [⟨"a", "b._c", "p", "1"⟩, ⟨"a._b", "c", "p", "2"⟩]).Nodup := by
  refine ⟨?_, rfl, ?_⟩
  · intro h
    have h0 : (["app._x_1", "app._x_3"] : List String) = ["app.x", "app._x_0"] :=
      (show Cmd.disambiguatedNames
          [⟨"app", "x", "onelogin", "1"⟩, ⟨"app", "x", "onelogin", "2"⟩] =
          ["app._x_1", "app._x_3"] from rfl).symm.trans h
    exact absurd h0 (by decide)
  · intro h
    rw [show Cmd.disambiguatedNames [⟨"a", "b._c", "p", "1"⟩, ⟨"a._b", "c", "p", "2"⟩] =
      ["a._b._c_0", "a._b._c_0"] from rfl] at h
    rcases h with _ | ⟨h1, _⟩
    exact absurd rfl (h1 "a._b._c_0" (List.mem_singleton.mpr rfl))


/-! ## Claim C9: file-handle closure on every termination path -/

/-- C9 (evaluation): the plan-file handle leaks exactly on the
import-failure path.  In general the handle stays open iff the run
reaches the import loop and some `terraform import` invocation fails;
concretely, an environment whose first import fails terminates fatally
with the handle still open, while the same environment with imports
succeeding closes it. -/
theorem claim_C9_eval :
    (∀ env : Cmd.TfImportEnv,
      (Cmd.tfImportRun env).closed = false ↔
        (((Tfimport.filterExistingDefinitions env.planText env.remoteDefs).1).length ≠ 0
          ∧ (env.autoApprove = true ∨ goToLower env.userInput = "y"
              ∨ goToLower env.userInput = "yes")
          ∧ env.writeHeadersOk = true ∧ env.initOk = true
          ∧ (Cmd.firstImportFailure env.importOk
              ((Tfimport.filterExistingDefinitions env.planText env.remoteDefs).1).length).isSome
            = true))
    ∧ Cmd.tfImportRun
        ⟨[⟨"onelogin_apps", "x", "onelogin", "1"⟩], "", true, "", true, true,
          fun _ => false, true, true, true⟩ =
        ⟨false, .fatal⟩
    ∧ Cmd.tfImportRun
        ⟨[⟨"onelogin_apps", "x", "onelogin", "1"⟩], "", true, "", true, true,
          fun _ => true, true, true, true⟩ =
        ⟨true, .normal⟩ := by
  refine ⟨?_, rfl, rfl⟩
  intro env
  rw [Cmd.tfImportRun]
  by_cases h1 : ((Tfimport.filterExistingDefinitions env.planText env.remoteDefs).1).length = 0
  · rw [if_pos h1]
    simp [h1]
  · rw [if_neg h1]
    by_cases h2 : env.autoApprove = true ∨ goToLower env.userInput = "y"
        ∨ goToLower env.userInput = "yes"
    · rw [if_neg (not_not_intro h2)]
      by_cases h3 : env.writeHeadersOk = false
      · rw [if_pos h3]
        simp [h3]
      · rw [if_neg h3]
        by_cases h4 : env.initOk = false
        · rw [if_pos h4]
          simp [h4]
        · rw [if_neg h4]
          cases h5 : Cmd.firstImportFailure env.importOk
              ((Tfimport.filterExistingDefinitions env.planText env.remoteDefs).1).length with
          | some i =>
            have h3t : env.writeHeadersOk = true := by
              cases hwh : env.writeHeadersOk
              · exact absurd hwh h3
              · rfl
            have h4t : env.initOk = true := by
              cases hio : env.initOk
              · exact absurd hio h4
              · rfl
            simp [h1, h2, h3t, h4t, h5]
          | none =>
            by_cases h6 : env.readStateOk = false
            · rw [if_pos h6]; simp [h5]
            · rw [if_neg h6]
              by_cases h7 : env.unmarshalOk = false
              · rw [if_pos h7]; simp [h5]
              · rw [if_neg h7]
                by_cases h8 : env.writeFinalOk = false
                · rw [if_pos h8]; simp [h5]
                · rw [if_neg h8]; simp [h5]
    · rw [if_pos h2]
      simp [h2]

end OneLoginTF
